import Mathlib

/-!
# Verification of the `comparison` terraform-plan-diff package

A shallow embedding of `src/terraform_plan_diff.go`.  A parsed JSON plan
(Go `map[string]interface{}` / `[]interface{}` / scalars) is modelled by the
nested inductive `Value`; a Go `map[string]interface{}` is modelled as an
association list `Entries = List (String × Value)` recording one entry per
key (Go maps cannot hold a key twice; where a proof needs that fact it takes
an explicit `nodupKeysB` hypothesis).  Go map assignment `m[k] = v` is
modelled by `aset` (replace the entry in place, or append a fresh one) and
map indexing by `alookup`.  `reflect.DeepEqual` is modelled by `deepEqual`,
which compares objects as finite maps exactly the way `reflect.DeepEqual`
does: equal length plus every entry of the left found (deeply equal) in the
right.
-/

set_option maxHeartbeats 1600000

namespace PlanDiff

/-- A parsed JSON value: the universal data shape of both input plans. -/
inductive Value where
  | null : Value
  | bool : Bool → Value
  | num : Int → Value
  | str : String → Value
  | arr : List Value → Value
  | obj : List (String × Value) → Value
deriving Repr

/-- A Go `map[string]interface{}`, as the association list of its entries. -/
abbrev Entries := List (String × Value)

/-- Go map indexing `m[k]`: the value at the first entry carrying key `k`. -/
def alookup : Entries → String → Option Value
  | [], _ => none
  | (k', v) :: rest, k => if k' = k then some v else alookup rest k

/-- Go `_, ok := m[k]`. -/
def hasKey (m : Entries) (k : String) : Bool :=
  (alookup m k).isSome

/-- Go map assignment `m[k] = v`: replace the entry for `k` in place, or
append a fresh entry when `k` is absent. -/
def aset : Entries → String → Value → Entries
  | [], k, v => [(k, v)]
  | (k', v') :: rest, k, v =>
    if k' = k then (k, v) :: rest else (k', v') :: aset rest k v

/-- No key occurs twice: the invariant every Go map satisfies by
construction. -/
def nodupKeysB : Entries → Bool
  | [] => true
  | (k, _) :: rest => !hasKey rest k && nodupKeysB rest

mutual

/-- A value all of whose object nodes have pairwise distinct keys: the image
of an actual Go value under the embedding. -/
def wfValue : Value → Bool
  | .obj m => nodupKeysB m && wfEntries m
  | .arr l => wfList l
  | _ => true

/-- `wfValue` on every entry value of an association list. -/
def wfEntries : Entries → Bool
  | [] => true
  | (_, v) :: rest => wfValue v && wfEntries rest

/-- `wfValue` on every element of a list. -/
def wfList : List Value → Bool
  | [] => true
  | v :: rest => wfValue v && wfList rest

end

mutual

/-- Go `reflect.DeepEqual`, restricted to the JSON value universe: scalars
compare by value, slices pointwise, and maps as finite maps (equal size and
every entry of the left matched in the right). -/
def deepEqual : Value → Value → Bool
  | .null, .null => true
  | .bool a, .bool b => a == b
  | .num a, .num b => a == b
  | .str a, .str b => a == b
  | .arr a, .arr b => deepEqualList a b
  | .obj a, .obj b => (a.length == b.length) && deepEqualSub a b
  | _, _ => false

/-- Pointwise `deepEqual` on slices. -/
def deepEqualList : List Value → List Value → Bool
  | [], [] => true
  | a :: as_, b :: bs => deepEqual a b && deepEqualList as_ bs
  | _, _ => false

/-- Every entry of the first map is present, deeply equal, in the second. -/
def deepEqualSub : Entries → Entries → Bool
  | [], _ => true
  | (k, v) :: rest, b =>
    (match alookup b k with
     | some w => deepEqual v w
     | none => false) && deepEqualSub rest b

end

/-- `reflect.DeepEqual` on two Go maps (the shape the section comparators
feed it). -/
def deepEqualMap (a b : Entries) : Bool :=
  (a.length == b.length) && deepEqualSub a b

mutual

/-- Structural (syntactic) equality test on values. -/
def beqValue : Value → Value → Bool
  | .null, .null => true
  | .bool a, .bool b => a == b
  | .num a, .num b => a == b
  | .str a, .str b => a == b
  | .arr a, .arr b => beqList a b
  | .obj a, .obj b => beqEntries a b
  | _, _ => false

/-- Structural equality test on lists of values. -/
def beqList : List Value → List Value → Bool
  | [], [] => true
  | a :: as_, b :: bs => beqValue a b && beqList as_ bs
  | _, _ => false

/-- Structural equality test on entry lists. -/
def beqEntries : Entries → Entries → Bool
  | [], [] => true
  | (k, v) :: r, (k', v') :: r' => k == k' && beqValue v v' && beqEntries r r'
  | _, _ => false

end

/-- Structure-respecting induction principle for the nested inductive
`Value`. -/
theorem value_ind (P : Value → Prop)
    (hnull : P .null) (hbool : ∀ b, P (.bool b)) (hnum : ∀ n, P (.num n))
    (hstr : ∀ s, P (.str s))
    (harr : ∀ l, (∀ v ∈ l, P v) → P (.arr l))
    (hobj : ∀ m, (∀ p ∈ m, P p.2) → P (.obj m)) : ∀ v, P v
  | .null => hnull
  | .bool b => hbool b
  | .num n => hnum n
  | .str s => hstr s
  | .arr l => harr l (fun v _ => value_ind P hnull hbool hnum hstr harr hobj v)
  | .obj m => hobj m (fun p _ => value_ind P hnull hbool hnum hstr harr hobj p.2)
decreasing_by
  · rename_i hv
    have h1 := List.sizeOf_lt_of_mem hv
    simp only [Value.arr.sizeOf_spec]
    omega
  · rename_i hp
    have h1 := List.sizeOf_lt_of_mem hp
    have h2 : sizeOf p.2 < sizeOf p := by
      obtain ⟨a, b⟩ := p
      simp only [Prod.mk.sizeOf_spec]
      omega
    simp only [Value.obj.sizeOf_spec]
    omega

theorem beqList_iff {l : List Value}
    (ih : ∀ v ∈ l, ∀ w, beqValue v w = true ↔ v = w) :
    ∀ l', beqList l l' = true ↔ l = l' := by
  induction l with
  | nil => intro l'; cases l' <;> simp [beqList]
  | cons a as_ ihl =>
    intro l'
    cases l' with
    | nil => simp [beqList]
    | cons b bs =>
      have ha := ih a (by simp)
      have hrest := ihl (fun v hv => ih v (by simp [hv]))
      simp [beqList, Bool.and_eq_true, ha, hrest]

theorem beqEntries_iff {m : Entries}
    (ih : ∀ p ∈ m, ∀ w, beqValue p.2 w = true ↔ p.2 = w) :
    ∀ m', beqEntries m m' = true ↔ m = m' := by
  induction m with
  | nil => intro m'; cases m' <;> simp [beqEntries]
  | cons a as_ ihm =>
    intro m'
    obtain ⟨k, v⟩ := a
    cases m' with
    | nil => simp [beqEntries]
    | cons b bs =>
      obtain ⟨k', v'⟩ := b
      have ha := ih (k, v) (by simp)
      have hrest := ihm (fun p hp => ih p (by simp [hp]))
      simp [beqEntries, Bool.and_eq_true, ha, hrest, and_assoc]

theorem beqValue_iff : ∀ a b : Value, beqValue a b = true ↔ a = b := by
  intro a
  induction a using value_ind with
  | hnull => intro b; cases b <;> simp [beqValue]
  | hbool x => intro b; cases b <;> simp [beqValue]
  | hnum x => intro b; cases b <;> simp [beqValue]
  | hstr x => intro b; cases b <;> simp [beqValue]
  | harr l ih =>
    intro b
    cases b <;> simp [beqValue]
    exact beqList_iff ih _
  | hobj m ih =>
    intro b
    cases b <;> simp [beqValue]
    exact beqEntries_iff ih _

instance : DecidableEq Value := fun a b =>
  decidable_of_iff (beqValue a b = true) (beqValue_iff a b)

/-! ## The normalizer: `sortMapKeys` / `processValue` -/

/-- `m[k]` where the Go code has already established that `k` is a key of
`m`; absent keys fall back to the zero value `null` (never reached on the
call sites, where keys are drawn from `m` itself). -/
def lookupD (m : Entries) (k : String) : Value :=
  (alookup m k).getD .null

/-- Sort a key slice ascending, as Go `sort.Strings`. -/
def sortStrings (l : List String) : List String :=
  List.insertionSort (· ≤ ·) l

/-- Rebuild a map by walking its keys in sorted order (the loop body of Go
`sortMapKeys`, applied to entries whose values are already processed). -/
def sortEntriesOf (m : Entries) : Entries :=
  (sortStrings (m.map Prod.fst)).map (fun k => (k, lookupD m k))

mutual

/-- Go `processValue`: recursively sort the keys of every nested map,
rebuild every slice elementwise, and pass scalars through unchanged. -/
def processValue : Value → Value
  | .obj m => .obj (sortEntriesOf (processEntries m))
  | .arr l => .arr (processList l)
  | v => v

/-- `processValue` applied to every entry value. -/
def processEntries : Entries → Entries
  | [] => []
  | (k, v) :: rest => (k, processValue v) :: processEntries rest

/-- `processValue` applied to every slice element. -/
def processList : List Value → List Value
  | [] => []
  | v :: rest => processValue v :: processList rest

end

/-- Go `sortMapKeys`: collect the keys, sort them, and rebuild the map in
sorted key order with every value processed by `processValue`. -/
def sortMapKeys (m : Entries) : Entries :=
  (sortStrings (m.map Prod.fst)).map (fun k => (k, processValue (lookupD m k)))

/-! ## The section extractor -/

/-- Go `getVariables`: each entry of the top-level `variables` map that is
itself a map carrying a `value` field contributes `name -> value`. -/
def getVariables (plan : Entries) : Entries :=
  match alookup plan "variables" with
  | some (.obj vars) =>
    vars.foldl
      (fun result p =>
        match p.2 with
        | .obj varMap =>
          match alookup varMap "value" with
          | some value => aset result p.1 value
          | none => result
        | _ => result)
      []
  | _ => []

/-- Go `processRootModuleResources`: every slice element of `resources`
that is a map with a string `address` is written to `result` under that
address. -/
def processRootModuleResources (rootModule : Entries) (result : Entries) : Entries :=
  match alookup rootModule "resources" with
  | some (.arr resources) =>
    resources.foldl
      (fun r res =>
        match res with
        | .obj resMap =>
          match alookup resMap "address" with
          | some (.str address) => aset r address (.obj resMap)
          | _ => r
        | _ => r)
      result
  | _ => result

/-- Go `processPriorStateResources`: resources under
`prior_state.values.root_module`. -/
def processPriorStateResources (plan : Entries) (result : Entries) : Entries :=
  match alookup plan "prior_state" with
  | some (.obj priorState) =>
    match alookup priorState "values" with
    | some (.obj values) =>
      match alookup values "root_module" with
      | some (.obj rootModule) => processRootModuleResources rootModule result
      | _ => result
    | _ => result
  | _ => result

/-- Go `processPlannedValuesResources`: resources under
`planned_values.root_module`. -/
def processPlannedValuesResources (plan : Entries) (result : Entries) : Entries :=
  match alookup plan "planned_values" with
  | some (.obj plannedValues) =>
    match alookup plannedValues "root_module" with
    | some (.obj rootModule) => processRootModuleResources rootModule result
    | _ => result
  | _ => result

/-- Go `processResourceChanges`: every element of the top-level
`resource_changes` slice that is a map with a string `address` is written
to `result` under that address. -/
def processResourceChanges (plan : Entries) (result : Entries) : Entries :=
  match alookup plan "resource_changes" with
  | some (.arr resourceChanges) =>
    resourceChanges.foldl
      (fun r change =>
        match change with
        | .obj changeMap =>
          match alookup changeMap "address" with
          | some (.str address) => aset r address (.obj changeMap)
          | _ => r
        | _ => r)
      result
  | _ => result

/-- Go `getResources`: merge the three sources, later writes overwriting
earlier ones on the same address. -/
def getResources (plan : Entries) : Entries :=
  processResourceChanges plan
    (processPlannedValuesResources plan
      (processPriorStateResources plan []))

/-- The first phase of Go `getOutputs`: the `result` map after every entry
of `planned_values.outputs` has been written into it. -/
def getOutputsPlanned (plan : Entries) : Entries :=
  match alookup plan "planned_values" with
  | some (.obj plannedValues) =>
    match alookup plannedValues "outputs" with
    | some (.obj outputs) =>
      outputs.foldl (fun r p => aset r p.1 p.2) []
    | _ => []
  | _ => []

/-- Go `getOutputs`: all of `planned_values.outputs` first, then those
`output_changes` entries whose key is not already present. -/
def getOutputs (plan : Entries) : Entries :=
  match alookup plan "output_changes" with
  | some (.obj outputChanges) =>
    outputChanges.foldl
      (fun r p => if hasKey r p.1 then r else aset r p.1 p.2)
      (getOutputsPlanned plan)
  | _ => getOutputsPlanned plan

/-! ## Effective resource attributes -/

/-- Go `extractValuesField`: overlay every field of the record's `values`
sub-map onto `result`. -/
def extractValuesField (resMap : Entries) (result : Entries) : Entries :=
  match alookup resMap "values" with
  | some (.obj values) => values.foldl (fun r p => aset r p.1 p.2) result
  | _ => result

/-- Go `extractChangeAfterField`: overlay every field of the record's
`change.after` sub-map onto `result`. -/
def extractChangeAfterField (resMap : Entries) (result : Entries) : Entries :=
  match alookup resMap "change" with
  | some (.obj change) =>
    match alookup change "after" with
    | some (.obj after) => after.foldl (fun r p => aset r p.1 p.2) result
    | _ => result
  | _ => result

/-- Go `getResourceAttributes`: `values` fields first, then `change.after`
fields (the latter winning on collision); non-map records yield the empty
dictionary. -/
def getResourceAttributes (resource : Value) : Entries :=
  match resource with
  | .obj resMap => extractChangeAfterField resMap (extractValuesField resMap [])
  | _ => []

/-! ## The renderer

`formatValue`, `printAttributeDiff` and `formatOutputChange` are called by
the diff engine but their bodies are not among the repository files under
`src/`; they are modelled from the spec (section 4.5). -/

mutual

/-- Modelled from the spec: the repository's `formatValue` helper is not in
`src/`; per section 4.5 it renders scalars directly and nested structures
via a generic stringification whose exact layout is a presentation detail,
not a correctness-bearing contract. -/
def formatValue : Value → String
  | .null => "<nil>"
  | .bool b => if b then "true" else "false"
  | .num n => toString n
  | .str s => s
  | .arr l => "[" ++ formatValueList l ++ "]"
  | .obj m => "map[" ++ formatValueEntries m ++ "]"

/-- Stringification of slice elements, space separated. -/
def formatValueList : List Value → String
  | [] => ""
  | [v] => formatValue v
  | v :: rest => formatValue v ++ " " ++ formatValueList rest

/-- Stringification of map entries, space separated. -/
def formatValueEntries : Entries → String
  | [] => ""
  | [(k, v)] => k ++ ":" ++ formatValue v
  | (k, v) :: rest => k ++ ":" ++ formatValue v ++ " " ++ formatValueEntries rest

end

/-- Modelled from the spec: the repository's `printAttributeDiff` helper is
not in `src/`; per section 4.5 a changed resource attribute renders as an
indented two-line form carrying old and new values, the exact layout being
a presentation detail. -/
def printAttributeDiff (k : String) (oldV newV : Value) : String :=
  "  ~ " ++ k ++ ":\n      " ++ formatValue oldV ++ " => " ++ formatValue newV ++ "\n"

/-- Modelled from the spec: the repository's `formatOutputChange` helper is
not in `src/`; per section 4.5 a changed output renders as
`~ key: old => new`, the exact layout being a presentation detail. -/
def formatOutputChange (k : String) (oldV newV : Value) : String :=
  "~ " ++ k ++ ": " ++ formatValue oldV ++ " => " ++ formatValue newV ++ "\n"

/-! ## The attribute comparator -/

/-- Go `contains`: linear membership scan over a string slice. -/
def containsStr : List String → String → Bool
  | [], _ => false
  | x :: rest, s => if x = s then true else containsStr rest s

/-- The fixed priority list of `processAttributeDifferences`. -/
def priorityAttrs : List String := ["id", "url", "content"]

/-- The fixed skip set of `processAttributeDifferences`. -/
def skipAttrs (k : String) : Bool :=
  k = "response_body_base64" || k = "content_base64sha256" ||
  k = "content_base64sha512" || k = "content_md5" || k = "content_sha1" ||
  k = "content_sha256" || k = "content_sha512"

/-- A `{name, value}` record of a structured diff. -/
def mkNameValue (k : String) (v : Value) : Value :=
  .obj [("name", .str k), ("value", v)]

/-- A `{name, old, new}` record of a structured diff. -/
def mkNameOldNew (k : String) (oldV newV : Value) : Value :=
  .obj [("name", .str k), ("old", oldV), ("new", newV)]

/-- Go `processPriorityAttributes`: walk the priority keys in list order,
classifying each as changed, removed or added; the rendered fragment and the
three record collections are returned in loop order. -/
def processPriorityAttributes (origAttrs newAttrs : Entries) :
    List String → String × List Value × List Value × List Value
  | [] => ("", [], [], [])
  | attrK :: rest =>
    let (s, a, r, c) := processPriorityAttributes origAttrs newAttrs rest
    match alookup origAttrs attrK, alookup newAttrs attrK with
    | some origAttrV, some newAttrV =>
      if deepEqual origAttrV newAttrV then (s, a, r, c)
      else (printAttributeDiff attrK origAttrV newAttrV ++ s, a, r,
            mkNameOldNew attrK origAttrV newAttrV :: c)
    | some origAttrV, none =>
      ("  - " ++ attrK ++ ": " ++ formatValue origAttrV ++ "\n" ++ s, a,
       mkNameValue attrK origAttrV :: r, c)
    | none, some newAttrV =>
      ("  + " ++ attrK ++ ": " ++ formatValue newAttrV ++ "\n" ++ s,
       mkNameValue attrK newAttrV :: a, r, c)
    | none, none => (s, a, r, c)

/-- Go `processRegularAttributeChanges`: walk the old attributes, skipping
priority and skip-set keys, emitting changed and removed records. -/
def processRegularAttributeChanges (newAttrs : Entries) :
    Entries → String × List Value × List Value
  | [] => ("", [], [])
  | (attrK, origAttrV) :: rest =>
    let (s, r, c) := processRegularAttributeChanges newAttrs rest
    if containsStr priorityAttrs attrK || skipAttrs attrK then (s, r, c)
    else
      match alookup newAttrs attrK with
      | some newAttrV =>
        if deepEqual origAttrV newAttrV then (s, r, c)
        else (printAttributeDiff attrK origAttrV newAttrV ++ s, r,
              mkNameOldNew attrK origAttrV newAttrV :: c)
      | none =>
        ("  - " ++ attrK ++ ": " ++ formatValue origAttrV ++ "\n" ++ s,
         mkNameValue attrK origAttrV :: r, c)

/-- Go `processAddedAttributes`: walk the new attributes, emitting an added
record for every key absent from the old side that is neither a priority
key nor in the skip set. -/
def processAddedAttributes (origAttrs : Entries) :
    Entries → String × List Value
  | [] => ("", [])
  | (attrK, newAttrV) :: rest =>
    let (s, a) := processAddedAttributes origAttrs rest
    if !hasKey origAttrs attrK && !containsStr priorityAttrs attrK &&
        !skipAttrs attrK then
      ("  + " ++ attrK ++ ": " ++ formatValue newAttrV ++ "\n" ++ s,
       mkNameValue attrK newAttrV :: a)
    else (s, a)

/-- Go `processAttributeDifferences`: priority pass, then the regular pass
over old attributes, then the added pass over new attributes; the record
collections are concatenated in that order into the `added` / `removed` /
`changed` fields of the attribute diff map. -/
def processAttributeDifferences (origAttrs newAttrs : Entries) :
    String × Entries :=
  let (ps, pa, pr, pc) := processPriorityAttributes origAttrs newAttrs priorityAttrs
  let (rs, rr, rc) := processRegularAttributeChanges newAttrs origAttrs
  let (as_, aa) := processAddedAttributes origAttrs newAttrs
  (ps ++ rs ++ as_,
   [("added", .arr (pa ++ aa)), ("removed", .arr (pr ++ rr)),
    ("changed", .arr (pc ++ rc))])

/-! ## The diff engine -/

/-- The entries of `new` whose key is absent from `orig`: the "find added"
loop shared by the variables, outputs and resources comparisons (and, with
the arguments exchanged, the "find removed" loop). -/
def addedKeys (orig new : Entries) : Entries :=
  new.filter (fun p => !hasKey orig p.1)

/-- The `(key, old, new)` triples of keys present on both sides with
`reflect.DeepEqual`-unequal values, in old-side order: the "find changed"
loop shared by the variables and outputs comparisons. -/
def changedTriples (orig new : Entries) : List (String × Value × Value) :=
  orig.filterMap
    (fun p =>
      match alookup new p.1 with
      | some newV => if deepEqual p.2 newV then none else some (p.1, p.2, newV)
      | none => none)

/-- Go `compareVariables`: extract both variable dictionaries; when deeply
equal report no diff, otherwise emit the added / removed / changed records
and the rendered section. -/
def compareVariables (origPlan newPlan : Entries) : String × Entries × Bool :=
  let origVars := getVariables origPlan
  let newVars := getVariables newPlan
  if deepEqualMap origVars newVars then ("", [], false)
  else
    let added := addedKeys origVars newVars
    let removed := addedKeys newVars origVars
    let changed := changedTriples origVars newVars
    ("Variables:\n----------\n"
       ++ String.join (added.map (fun p => "+ " ++ p.1 ++ ": " ++ formatValue p.2 ++ "\n"))
       ++ String.join (removed.map (fun p => "- " ++ p.1 ++ ": " ++ formatValue p.2 ++ "\n"))
       ++ String.join (changed.map (fun t =>
            "~ " ++ t.1 ++ ": " ++ formatValue t.2.1 ++ " => " ++ formatValue t.2.2 ++ "\n"))
       ++ "\n",
     [("added", .arr (added.map (fun p => mkNameValue p.1 p.2))),
      ("removed", .arr (removed.map (fun p => mkNameValue p.1 p.2))),
      ("changed", .arr (changed.map (fun t => mkNameOldNew t.1 t.2.1 t.2.2)))],
     true)

/-- Go `compareOutputs`: the added / removed / changed records over two
output dictionaries (only called on unequal dictionaries). -/
def compareOutputs (origOutputs newOutputs : Entries) : String × Entries :=
  let added := addedKeys origOutputs newOutputs
  let removed := addedKeys newOutputs origOutputs
  let changed := changedTriples origOutputs newOutputs
  (String.join (added.map (fun p => "+ " ++ p.1 ++ ": " ++ formatValue p.2 ++ "\n"))
     ++ String.join (removed.map (fun p => "- " ++ p.1 ++ ": " ++ formatValue p.2 ++ "\n"))
     ++ String.join (changed.map (fun t => formatOutputChange t.1 t.2.1 t.2.2)),
   [("added", .arr (added.map (fun p => mkNameValue p.1 p.2))),
    ("removed", .arr (removed.map (fun p => mkNameValue p.1 p.2))),
    ("changed", .arr (changed.map (fun t => mkNameOldNew t.1 t.2.1 t.2.2)))])

/-- Go `compareOutputSections`: no diff when the two output dictionaries
are deeply equal, otherwise the section header plus `compareOutputs`. -/
def compareOutputSections (origPlan newPlan : Entries) : String × Entries × Bool :=
  let origOutputs := getOutputs origPlan
  let newOutputs := getOutputs newPlan
  if deepEqualMap origOutputs newOutputs then ("", [], false)
  else
    let (d, m) := compareOutputs origOutputs newOutputs
    ("Outputs:\n--------\n" ++ d, m, true)

/-- An `{address, value}` record of the structured resource diff. -/
def mkAddressValue (k : String) (v : Value) : Value :=
  .obj [("address", .str k), ("value", v)]

/-- Go `processResourceAdditionsAndRemovals`: address-level added and
removed records over the two resource dictionaries. -/
def processResourceAdditionsAndRemovals (origResources newResources : Entries) :
    String × List Value × List Value :=
  let added := addedKeys origResources newResources
  let removed := addedKeys newResources origResources
  (String.join (added.map (fun p => "+ " ++ p.1 ++ "\n"))
     ++ String.join (removed.map (fun p => "- " ++ p.1 ++ "\n")),
   added.map (fun p => mkAddressValue p.1 p.2),
   removed.map (fun p => mkAddressValue p.1 p.2))

/-- Go `processChangedResources` (the new-side dictionary first, then the
old-side entries being walked): for each address present on both sides with
`reflect.DeepEqual`-unequal records, delegate to the attribute comparator
and emit an `{address, attributes}` record. -/
def processChangedResources (newResources : Entries) :
    Entries → String × List Value
  | [] => ("", [])
  | (k, origV) :: rest =>
    let (s, c) := processChangedResources newResources rest
    match alookup newResources k with
    | some newV =>
      if deepEqual origV newV then (s, c)
      else
        let origAttrs := getResourceAttributes origV
        let newAttrs := getResourceAttributes newV
        let (attrStr, attrChanges) := processAttributeDifferences origAttrs newAttrs
        (k ++ "\n" ++ attrStr ++ s,
         .obj [("address", .str k), ("attributes", .obj attrChanges)] :: c)
    | none => (s, c)

/-- Go `compareResources`: additions and removals first, then the changed
resources, assembled into the `added` / `removed` / `changed` fields. -/
def compareResources (origResources newResources : Entries) : String × Entries :=
  let (ars, added, removed) := processResourceAdditionsAndRemovals origResources newResources
  let (chs, changed) := processChangedResources newResources origResources
  (ars ++ chs,
   [("added", .arr added), ("removed", .arr removed), ("changed", .arr changed)])

/-- Go `compareResourceSections`: no diff when the two resource
dictionaries are deeply equal, otherwise the section header plus
`compareResources`. -/
def compareResourceSections (origPlan newPlan : Entries) : String × Entries × Bool :=
  let origResources := getResources origPlan
  let newResources := getResources newPlan
  if deepEqualMap origResources newResources then ("", [], false)
  else
    let (d, m) := compareResources origResources newResources
    ("Resources:\n-----------\n\n" ++ d ++ "\n", m, true)

/-- Go `generatePlanDiff`: concatenate the three section reports, assemble
the structured diff map (a section key present only when that section
differs), and flag whether any section differed. -/
def generatePlanDiff (origPlan newPlan : Entries) : String × Entries × Bool :=
  let (vs, vm, vh) := compareVariables origPlan newPlan
  let (rs, rm, rh) := compareResourceSections origPlan newPlan
  let (os1, om, oh) := compareOutputSections origPlan newPlan
  ((if vh then vs else "") ++ (if rh then rs else "") ++ (if oh then os1 else ""),
   (if vh then [("variables", Value.obj vm)] else [])
     ++ (if rh then [("resources", Value.obj rm)] else [])
     ++ (if oh then [("outputs", Value.obj om)] else []),
   vh || rh || oh)

/-! ## The collaborator boundary: `extractJSONFromOutput` -/

/-- The package's static sentinel errors, as a closed error kind. -/
inductive CompErr where
  | errNoJSONOutput : CompErr
deriving Repr, DecidableEq

/-- Go `strings.Index` specialized to a one-character needle: the position
of the first occurrence, or `none`. -/
def stringsIndex : List Char → Char → Option Nat
  | [], _ => none
  | c :: rest, t => if c = t then some 0 else (stringsIndex rest t).map (· + 1)

/-- Go `extractJSONFromOutput`: hand back the suffix of the captured output
starting at the first opening brace, or the `ErrNoJSONOutput` sentinel
(with the empty string) when there is none. -/
def extractJSONFromOutput (output : String) : String × Option CompErr :=
  match stringsIndex output.toList '{' with
  | none => ("", some .errNoJSONOutput)
  | some i => (String.mk (output.toList.drop i), none)

/-! ## Basic lemmas about the map operations -/

/-- Left-biased choice on options (`a` when present, else `b`). -/
def oor {α : Type} : Option α → Option α → Option α
  | some v, _ => some v
  | none, b => b

@[simp] theorem oor_some {α : Type} (v : α) (b : Option α) : oor (some v) b = some v := rfl

@[simp] theorem oor_none {α : Type} (b : Option α) : oor none b = b := rfl

@[simp] theorem oor_none_right {α : Type} (a : Option α) : oor a none = a := by
  cases a <;> rfl

theorem oor_assoc {α : Type} (a b c : Option α) :
    oor (oor a b) c = oor a (oor b c) := by
  cases a <;> cases b <;> rfl

@[simp] theorem alookup_nil (k : String) : alookup [] k = none := rfl

@[simp] theorem alookup_cons (k' k : String) (v : Value) (rest : Entries) :
    alookup ((k', v) :: rest) k = if k' = k then some v else alookup rest k := rfl

@[simp] theorem alookup_aset_self (r : Entries) (k : String) (v : Value) :
    alookup (aset r k v) k = some v := by
  induction r with
  | nil => simp [aset]
  | cons p rest ih =>
    obtain ⟨k', v'⟩ := p
    by_cases h : k' = k <;> simp [aset, h, ih]

theorem alookup_aset_ne (r : Entries) (k' k : String) (v : Value) (h : k' ≠ k) :
    alookup (aset r k' v) k = alookup r k := by
  induction r with
  | nil => simp [aset, h]
  | cons p rest ih =>
    obtain ⟨k'', v''⟩ := p
    by_cases h2 : k'' = k'
    · subst h2; simp [aset, h]
    · simp [aset, h2]
      by_cases h3 : k'' = k <;> simp [h3, ih]

theorem hasKey_aset (r : Entries) (k' k : String) (v : Value) :
    hasKey (aset r k' v) k = (k' = k || hasKey r k) := by
  by_cases h : k' = k
  · subst h; simp [hasKey]
  · simp [hasKey, alookup_aset_ne r k' k v h, h]

theorem mem_of_alookup {m : Entries} {k : String} {v : Value}
    (h : alookup m k = some v) : (k, v) ∈ m := by
  induction m with
  | nil => simp [alookup] at h
  | cons p rest ih =>
    obtain ⟨k', v'⟩ := p
    by_cases h2 : k' = k
    · subst h2
      simp [alookup] at h
      simp [h]
    · simp [alookup, h2] at h
      simp [ih h]

theorem key_mem_of_alookup {m : Entries} {k : String} {v : Value}
    (h : alookup m k = some v) : k ∈ m.map Prod.fst := by
  have := mem_of_alookup h
  exact List.mem_map.2 ⟨(k, v), this, rfl⟩

theorem hasKey_iff_key_mem (m : Entries) (k : String) :
    hasKey m k = true ↔ k ∈ m.map Prod.fst := by
  induction m with
  | nil => simp [hasKey, alookup]
  | cons p rest ih =>
    obtain ⟨k', v'⟩ := p
    by_cases h : k' = k
    · subst h; simp [hasKey, alookup]
    · simp [hasKey, alookup, h, Ne.symm h] at ih ⊢
      exact ih

theorem alookup_isSome_of_key_mem {m : Entries} {k : String}
    (h : k ∈ m.map Prod.fst) : ∃ v, alookup m k = some v := by
  have h2 := (hasKey_iff_key_mem m k).2 h
  simp [hasKey, Option.isSome_iff_exists] at h2
  exact h2

theorem alookup_eq_of_mem_nodup {m : Entries} {k : String} {v : Value}
    (hn : nodupKeysB m = true) (h : (k, v) ∈ m) : alookup m k = some v := by
  induction m with
  | nil => simp at h
  | cons p rest ih =>
    obtain ⟨k', v'⟩ := p
    simp only [nodupKeysB, Bool.and_eq_true, Bool.not_eq_true'] at hn
    rcases List.mem_cons.1 h with h1 | h1
    · rw [Prod.mk.injEq] at h1
      obtain ⟨rfl, rfl⟩ := h1
      simp [alookup]
    · have hne : k' ≠ k := by
        rintro rfl
        have : k' ∈ rest.map Prod.fst := List.mem_map.2 ⟨(k', v), h1, rfl⟩
        have := (hasKey_iff_key_mem rest k').2 this
        simp [hn.1] at this
      simp [alookup, hne, ih hn.2 h1]

theorem nodupKeysB_aset (r : Entries) (k : String) (v : Value)
    (h : nodupKeysB r = true) : nodupKeysB (aset r k v) = true := by
  induction r with
  | nil => simp [aset, nodupKeysB, hasKey, alookup]
  | cons p rest ih =>
    obtain ⟨k', v'⟩ := p
    simp only [nodupKeysB, Bool.and_eq_true, Bool.not_eq_true'] at h
    by_cases h2 : k' = k
    · subst h2
      simp [aset, nodupKeysB, h.1, h.2]
    · simp only [aset, h2, if_false, nodupKeysB, Bool.and_eq_true, Bool.not_eq_true']
      refine ⟨?_, ih h.2⟩
      have : hasKey (aset rest k v) k' = (k = k' || hasKey rest k') := hasKey_aset rest k k' v
      rw [this]
      simp [Ne.symm h2, h.1]

/-- Any property preserved by every step of a fold is preserved by the
fold. -/
theorem foldl_preserve {α : Type} (f : Entries → α → Entries) (P : Entries → Prop)
    (l : List α) (r : Entries) (hr : P r)
    (hstep : ∀ r x, x ∈ l → P r → P (f r x)) : P (l.foldl f r) := by
  induction l generalizing r with
  | nil => exact hr
  | cons x rest ih =>
    exact ih (f r x) (hstep r x (by simp) hr)
      (fun r' y hy hr' => hstep r' y (by simp [hy]) hr')

/-! ## Characterizations of the insertion folds -/

/-- The value the last entry of `l` carrying key `k` holds (the final state
a sequence of Go map writes leaves behind). -/
def lastEntry : Entries → String → Option Value
  | [], _ => none
  | (k', v) :: rest, k =>
    oor (lastEntry rest k) (if k' = k then some v else none)

theorem alookup_foldl_aset (l : Entries) (r : Entries) (k : String) :
    alookup (l.foldl (fun r p => aset r p.1 p.2) r) k
      = oor (lastEntry l k) (alookup r k) := by
  induction l generalizing r with
  | nil => simp [lastEntry]
  | cons p rest ih =>
    obtain ⟨k', v⟩ := p
    simp only [List.foldl_cons, lastEntry]
    rw [ih, oor_assoc]
    congr 1
    by_cases h : k' = k
    · subst h; simp
    · simp [h, alookup_aset_ne r k' k v h]

theorem lastEntry_eq_alookup {l : Entries} (hn : nodupKeysB l = true) (k : String) :
    lastEntry l k = alookup l k := by
  induction l with
  | nil => rfl
  | cons p rest ih =>
    obtain ⟨k', v⟩ := p
    simp only [nodupKeysB, Bool.and_eq_true, Bool.not_eq_true'] at hn
    simp only [lastEntry, alookup_cons, ih hn.2]
    by_cases h : k' = k
    · subst h
      have : alookup rest k' = none := by
        cases h2 : alookup rest k' with
        | none => rfl
        | some w =>
          have := (hasKey_iff_key_mem rest k').2 (key_mem_of_alookup h2)
          simp [hn.1] at this
      simp [this]
    · simp [h]

theorem alookup_foldl_guarded (l : Entries) (r : Entries) (k : String)
    (hk : hasKey r k = true) :
    alookup (l.foldl (fun r p => if hasKey r p.1 then r else aset r p.1 p.2) r) k
      = alookup r k := by
  induction l generalizing r with
  | nil => rfl
  | cons p rest ih =>
    obtain ⟨k', v⟩ := p
    simp only [List.foldl_cons]
    by_cases h : hasKey r k' = true
    · rw [if_pos h]
      exact ih r hk
    · rw [if_neg h]
      have hne : k' ≠ k := by
        rintro rfl; exact h hk
      have h2 : alookup (aset r k' v) k = alookup r k := alookup_aset_ne r k' k v hne
      have h3 : hasKey (aset r k' v) k = true := by
        simpa [hasKey, h2] using hk
      rw [ih (aset r k' v) h3]
      exact h2

/-- The record the last well-formed element of a resource slice carrying
address `k` holds. -/
def lastAddrRecord : List Value → String → Option Entries
  | [], _ => none
  | c :: cs, k =>
    oor (lastAddrRecord cs k)
      (match c with
       | .obj cm =>
         match alookup cm "address" with
         | some (.str a) => if a = k then some cm else none
         | _ => none
       | _ => none)

@[simp] theorem map_oor {α β : Type} (f : α → β) (a b : Option α) :
    Option.map f (oor a b) = oor (Option.map f a) (Option.map f b) := by
  cases a <;> rfl

theorem alookup_foldl_resources (l : List Value) (r : Entries) (k : String) :
    alookup
      (l.foldl
        (fun r res =>
          match res with
          | .obj resMap =>
            match alookup resMap "address" with
            | some (.str address) => aset r address (.obj resMap)
            | _ => r
          | _ => r)
        r) k
      = oor ((lastAddrRecord l k).map Value.obj) (alookup r k) := by
  induction l generalizing r with
  | nil => simp [lastAddrRecord]
  | cons c cs ih =>
    simp only [List.foldl_cons, lastAddrRecord, map_oor, oor_assoc]
    rw [ih]
    congr 1
    cases c with
    | obj cm =>
      cases ha : alookup cm "address" with
      | none => simp [ha]
      | some av =>
        cases av with
        | str a =>
          by_cases h : a = k
          · subst h
            simp [ha]
          · simp [ha, h, alookup_aset_ne r a k (.obj cm) h]
        | null => simp [ha]
        | bool b => simp [ha]
        | num n => simp [ha]
        | arr l2 => simp [ha]
        | obj m2 => simp [ha]
    | null => simp
    | bool b => simp
    | num n => simp
    | str s => simp
    | arr l2 => simp

/-! ## Well-formedness and reflexivity of `deepEqual` -/

theorem wfEntries_iff (m : Entries) :
    wfEntries m = true ↔ ∀ p ∈ m, wfValue p.2 = true := by
  induction m with
  | nil => simp [wfEntries]
  | cons p rest ih =>
    obtain ⟨k, v⟩ := p
    simp [wfEntries, Bool.and_eq_true, ih]

theorem wfList_iff (l : List Value) :
    wfList l = true ↔ ∀ v ∈ l, wfValue v = true := by
  induction l with
  | nil => simp [wfList]
  | cons v rest ih => simp [wfList, Bool.and_eq_true, ih]

theorem wfValue_obj_iff (m : Entries) :
    wfValue (.obj m) = true ↔ nodupKeysB m = true ∧ wfEntries m = true := by
  simp [wfValue, Bool.and_eq_true]

theorem wfValue_of_alookup {m : Entries} {k : String} {v : Value}
    (hm : wfEntries m = true) (h : alookup m k = some v) : wfValue v = true :=
  (wfEntries_iff m).1 hm (k, v) (mem_of_alookup h)

theorem wfEntries_aset {r : Entries} {k : String} {v : Value}
    (hr : wfEntries r = true) (hv : wfValue v = true) :
    wfEntries (aset r k v) = true := by
  induction r with
  | nil => simp [aset, wfEntries, hv]
  | cons p rest ih =>
    obtain ⟨k', v'⟩ := p
    simp only [wfEntries, Bool.and_eq_true] at hr
    by_cases h : k' = k
    · subst h; simp [aset, wfEntries, hv, hr.2]
    · simp [aset, h, wfEntries, hr.1, ih hr.2]

theorem deepEqualSub_of_forall {a b : Entries}
    (h : ∀ p ∈ a, ∃ w, alookup b p.1 = some w ∧ deepEqual p.2 w = true) :
    deepEqualSub a b = true := by
  induction a with
  | nil => simp [deepEqualSub]
  | cons p rest ih =>
    obtain ⟨k, v⟩ := p
    obtain ⟨w, hw, he⟩ := h (k, v) (by simp)
    simp only [deepEqualSub, Bool.and_eq_true]
    exact ⟨by simp [hw, he], ih (fun q hq => h q (by simp [hq]))⟩

theorem forall_of_deepEqualSub {a b : Entries}
    (h : deepEqualSub a b = true) :
    ∀ p ∈ a, ∃ w, alookup b p.1 = some w ∧ deepEqual p.2 w = true := by
  induction a with
  | nil => simp
  | cons p rest ih =>
    obtain ⟨k, v⟩ := p
    simp only [deepEqualSub, Bool.and_eq_true] at h
    intro q hq
    rcases List.mem_cons.1 hq with h1 | h1
    · subst h1
      cases hw : alookup b k with
      | none => rw [hw] at h; simp at h
      | some w =>
        rw [hw] at h
        exact ⟨w, rfl, h.1⟩
    · exact ih h.2 q h1

theorem deepEqual_refl : ∀ v : Value, wfValue v = true → deepEqual v v = true := by
  intro v
  induction v using value_ind with
  | hnull => intro _; simp [deepEqual]
  | hbool b => intro _; simp [deepEqual]
  | hnum n => intro _; simp [deepEqual]
  | hstr s => intro _; simp [deepEqual]
  | harr l ih =>
    intro hw
    rw [wfValue] at hw
    simp only [deepEqual]
    rw [wfList_iff] at hw
    induction l with
    | nil => simp [deepEqualList]
    | cons v rest ihl =>
      simp only [deepEqualList, Bool.and_eq_true]
      exact ⟨ih v (by simp) (hw v (by simp)),
             ihl (fun w hwm => ih w (by simp [hwm])) (fun w hwm => hw w (by simp [hwm]))⟩
  | hobj m ih =>
    intro hw
    rw [wfValue_obj_iff] at hw
    simp only [deepEqual, Bool.and_eq_true]
    refine ⟨by simp, deepEqualSub_of_forall ?_⟩
    intro p hp
    exact ⟨p.2, alookup_eq_of_mem_nodup hw.1 (by simpa using hp),
           ih p hp ((wfEntries_iff m).1 hw.2 p hp)⟩

theorem deepEqualMap_refl {d : Entries} (hn : nodupKeysB d = true)
    (hw : wfEntries d = true) : deepEqualMap d d = true := by
  simp only [deepEqualMap, Bool.and_eq_true]
  refine ⟨by simp, deepEqualSub_of_forall ?_⟩
  intro p hp
  exact ⟨p.2, alookup_eq_of_mem_nodup hn (by simpa using hp),
         deepEqual_refl p.2 ((wfEntries_iff d).1 hw p hp)⟩

/-! ## Key-uniqueness and well-formedness of the extracted sections -/

theorem wfValue_arr (l : List Value) : wfValue (.arr l) = wfList l := by
  simp [wfValue]

theorem nodupKeysB_getVariables (plan : Entries) :
    nodupKeysB (getVariables plan) = true := by
  unfold getVariables
  split
  · apply foldl_preserve _ (fun r => nodupKeysB r = true) _ _ (by rfl)
    intro r p _ hp
    dsimp only
    split
    · split
      · exact nodupKeysB_aset _ _ _ hp
      · exact hp
    · exact hp
  · rfl

theorem wfEntries_getVariables (plan : Entries) (hw : wfEntries plan = true) :
    wfEntries (getVariables plan) = true := by
  unfold getVariables
  split
  · rename_i vars heq
    have hvars : wfEntries vars = true :=
      ((wfValue_obj_iff vars).1 (wfValue_of_alookup hw heq)).2
    apply foldl_preserve _ (fun r => wfEntries r = true) _ _ (by simp [wfEntries])
    intro r p hmem hp
    dsimp only
    split
    · rename_i varMap hp2
      split
      · rename_i value hval
        have hm : wfValue (.obj varMap) = true :=
          hp2 ▸ (wfEntries_iff vars).1 hvars p hmem
        exact wfEntries_aset hp (wfValue_of_alookup ((wfValue_obj_iff varMap).1 hm).2 hval)
      · exact hp
    · exact hp
  · simp [wfEntries]

theorem nodupKeysB_processRootModuleResources (rootModule result : Entries)
    (hr : nodupKeysB result = true) :
    nodupKeysB (processRootModuleResources rootModule result) = true := by
  unfold processRootModuleResources
  split
  · apply foldl_preserve _ (fun r => nodupKeysB r = true) _ _ hr
    intro r res _ hp
    dsimp only
    split
    · split
      · exact nodupKeysB_aset _ _ _ hp
      · exact hp
    · exact hp
  · exact hr

theorem wfEntries_processRootModuleResources (rootModule result : Entries)
    (hw : wfEntries rootModule = true) (hr : wfEntries result = true) :
    wfEntries (processRootModuleResources rootModule result) = true := by
  unfold processRootModuleResources
  split
  · rename_i resources heq
    have hres : wfList resources = true := by
      have := wfValue_of_alookup hw heq
      rwa [wfValue_arr] at this
    apply foldl_preserve _ (fun r => wfEntries r = true) _ _ hr
    intro r res hmem hp
    dsimp only
    split
    · rename_i resMap
      split
      · rename_i address haddr
        refine wfEntries_aset hp ?_
        exact (wfList_iff resources).1 hres _ hmem
      · exact hp
    · exact hp
  · exact hr

theorem nodupKeysB_processPriorStateResources (plan result : Entries)
    (hr : nodupKeysB result = true) :
    nodupKeysB (processPriorStateResources plan result) = true := by
  unfold processPriorStateResources
  split
  · split
    · split
      · exact nodupKeysB_processRootModuleResources _ _ hr
      · exact hr
    · exact hr
  · exact hr

theorem wfEntries_processPriorStateResources (plan result : Entries)
    (hw : wfEntries plan = true) (hr : wfEntries result = true) :
    wfEntries (processPriorStateResources plan result) = true := by
  unfold processPriorStateResources
  split
  · rename_i priorState h1
    have hps : wfEntries priorState = true :=
      ((wfValue_obj_iff _).1 (wfValue_of_alookup hw h1)).2
    split
    · rename_i values h2
      have hv : wfEntries values = true :=
        ((wfValue_obj_iff _).1 (wfValue_of_alookup hps h2)).2
      split
      · rename_i rootModule h3
        have hrm : wfEntries rootModule = true :=
          ((wfValue_obj_iff _).1 (wfValue_of_alookup hv h3)).2
        exact wfEntries_processRootModuleResources _ _ hrm hr
      · exact hr
    · exact hr
  · exact hr

theorem nodupKeysB_processPlannedValuesResources (plan result : Entries)
    (hr : nodupKeysB result = true) :
    nodupKeysB (processPlannedValuesResources plan result) = true := by
  unfold processPlannedValuesResources
  split
  · split
    · exact nodupKeysB_processRootModuleResources _ _ hr
    · exact hr
  · exact hr

theorem wfEntries_processPlannedValuesResources (plan result : Entries)
    (hw : wfEntries plan = true) (hr : wfEntries result = true) :
    wfEntries (processPlannedValuesResources plan result) = true := by
  unfold processPlannedValuesResources
  split
  · rename_i plannedValues h1
    have hpv : wfEntries plannedValues = true :=
      ((wfValue_obj_iff _).1 (wfValue_of_alookup hw h1)).2
    split
    · rename_i rootModule h2
      have hrm : wfEntries rootModule = true :=
        ((wfValue_obj_iff _).1 (wfValue_of_alookup hpv h2)).2
      exact wfEntries_processRootModuleResources _ _ hrm hr
    · exact hr
  · exact hr

theorem nodupKeysB_processResourceChanges (plan result : Entries)
    (hr : nodupKeysB result = true) :
    nodupKeysB (processResourceChanges plan result) = true := by
  unfold processResourceChanges
  split
  · apply foldl_preserve _ (fun r => nodupKeysB r = true) _ _ hr
    intro r res _ hp
    dsimp only
    split
    · split
      · exact nodupKeysB_aset _ _ _ hp
      · exact hp
    · exact hp
  · exact hr

theorem wfEntries_processResourceChanges (plan result : Entries)
    (hw : wfEntries plan = true) (hr : wfEntries result = true) :
    wfEntries (processResourceChanges plan result) = true := by
  unfold processResourceChanges
  split
  · rename_i resourceChanges heq
    have hres : wfList resourceChanges = true := by
      have := wfValue_of_alookup hw heq
      rwa [wfValue_arr] at this
    apply foldl_preserve _ (fun r => wfEntries r = true) _ _ hr
    intro r res hmem hp
    dsimp only
    split
    · rename_i changeMap
      split
      · rename_i address haddr
        refine wfEntries_aset hp ?_
        exact (wfList_iff resourceChanges).1 hres _ hmem
      · exact hp
    · exact hp
  · exact hr

theorem nodupKeysB_getResources (plan : Entries) :
    nodupKeysB (getResources plan) = true := by
  unfold getResources
  exact nodupKeysB_processResourceChanges _ _
    (nodupKeysB_processPlannedValuesResources _ _
      (nodupKeysB_processPriorStateResources _ _ rfl))

theorem wfEntries_getResources (plan : Entries) (hw : wfEntries plan = true) :
    wfEntries (getResources plan) = true := by
  unfold getResources
  refine wfEntries_processResourceChanges _ _ hw
    (wfEntries_processPlannedValuesResources _ _ hw
      (wfEntries_processPriorStateResources _ _ hw ?_))
  simp [wfEntries]

theorem nodupKeysB_getOutputsPlanned (plan : Entries) :
    nodupKeysB (getOutputsPlanned plan) = true := by
  unfold getOutputsPlanned
  split
  · split
    · apply foldl_preserve _ (fun r => nodupKeysB r = true) _ _ (by rfl)
      intro r p _ hp
      exact nodupKeysB_aset _ _ _ hp
    · rfl
  · rfl

theorem wfEntries_getOutputsPlanned (plan : Entries) (hw : wfEntries plan = true) :
    wfEntries (getOutputsPlanned plan) = true := by
  unfold getOutputsPlanned
  split
  · rename_i plannedValues h1
    have hpv : wfEntries plannedValues = true :=
      ((wfValue_obj_iff _).1 (wfValue_of_alookup hw h1)).2
    split
    · rename_i outputs h2
      have ho : wfEntries outputs = true :=
        ((wfValue_obj_iff _).1 (wfValue_of_alookup hpv h2)).2
      apply foldl_preserve _ (fun r => wfEntries r = true) _ _ (by simp [wfEntries])
      intro r p hmem hp
      exact wfEntries_aset hp ((wfEntries_iff outputs).1 ho p hmem)
    · simp [wfEntries]
  · simp [wfEntries]

theorem nodupKeysB_getOutputs (plan : Entries) :
    nodupKeysB (getOutputs plan) = true := by
  unfold getOutputs
  split
  · apply foldl_preserve _ (fun r => nodupKeysB r = true) _ _
      (nodupKeysB_getOutputsPlanned plan)
    intro r p _ hp
    dsimp only
    split
    · exact hp
    · exact nodupKeysB_aset _ _ _ hp
  · exact nodupKeysB_getOutputsPlanned plan

theorem wfEntries_getOutputs (plan : Entries) (hw : wfEntries plan = true) :
    wfEntries (getOutputs plan) = true := by
  unfold getOutputs
  split
  · rename_i outputChanges heq
    have hoc : wfEntries outputChanges = true :=
      ((wfValue_obj_iff _).1 (wfValue_of_alookup hw heq)).2
    apply foldl_preserve _ (fun r => wfEntries r = true) _ _
      (wfEntries_getOutputsPlanned plan hw)
    intro r p hmem hp
    dsimp only
    split
    · exact hp
    · exact wfEntries_aset hp ((wfEntries_iff outputChanges).1 hoc p hmem)
  · exact wfEntries_getOutputsPlanned plan hw

/-! ## Claim C4: comparing a document against itself -/

theorem compareVariables_eq_of_deepEqualMap {A B : Entries}
    (h : deepEqualMap (getVariables A) (getVariables B) = true) :
    compareVariables A B = ("", [], false) := by
  simp [compareVariables, h]

theorem compareResourceSections_eq_of_deepEqualMap {A B : Entries}
    (h : deepEqualMap (getResources A) (getResources B) = true) :
    compareResourceSections A B = ("", [], false) := by
  simp [compareResourceSections, h]

theorem compareOutputSections_eq_of_deepEqualMap {A B : Entries}
    (h : deepEqualMap (getOutputs A) (getOutputs B) = true) :
    compareOutputSections A B = ("", [], false) := by
  simp [compareOutputSections, h]

/-- **C4.** For every document `d` (any Go map: recursively duplicate-free
keys), comparing `d` against itself returns `hasDiff == false`, an empty
textual report, and an empty structured diff map, so no `variables`,
`resources` or `outputs` key is present. -/
theorem claim_C4_no_diff_self (d : Entries) (hw : wfValue (.obj d) = true) :
    generatePlanDiff d d = ("", [], false) := by
  have hwe : wfEntries d = true := ((wfValue_obj_iff d).1 hw).2
  have h1 : deepEqualMap (getVariables d) (getVariables d) = true :=
    deepEqualMap_refl (nodupKeysB_getVariables d) (wfEntries_getVariables d hwe)
  have h2 : deepEqualMap (getResources d) (getResources d) = true :=
    deepEqualMap_refl (nodupKeysB_getResources d) (wfEntries_getResources d hwe)
  have h3 : deepEqualMap (getOutputs d) (getOutputs d) = true :=
    deepEqualMap_refl (nodupKeysB_getOutputs d) (wfEntries_getOutputs d hwe)
  simp [generatePlanDiff, compareVariables_eq_of_deepEqualMap h1,
        compareResourceSections_eq_of_deepEqualMap h2,
        compareOutputSections_eq_of_deepEqualMap h3]

/-- **C4, witness.** The no-diff property applied to a concrete plan with a
variable, a resource and an output. -/
theorem claim_C4_witness :
    wfValue (.obj
      [("variables", .obj [("region", .obj [("value", .str "us-east-1")])]),
       ("planned_values", .obj
         [("outputs", .obj [("o", .str "X")]),
          ("root_module", .obj
            [("resources", .arr [.obj [("address", .str "a.b"),
                                       ("values", .obj [("x", .num 1)])]])])])]) = true
    ∧ generatePlanDiff
        [("variables", .obj [("region", .obj [("value", .str "us-east-1")])]),
         ("planned_values", .obj
           [("outputs", .obj [("o", .str "X")]),
            ("root_module", .obj
              [("resources", .arr [.obj [("address", .str "a.b"),
                                         ("values", .obj [("x", .num 1)])]])])])]
        [("variables", .obj [("region", .obj [("value", .str "us-east-1")])]),
         ("planned_values", .obj
           [("outputs", .obj [("o", .str "X")]),
            ("root_module", .obj
              [("resources", .arr [.obj [("address", .str "a.b"),
                                         ("values", .obj [("x", .num 1)])]])])])]
        = ("", [], false) :=
  ⟨by decide, claim_C4_no_diff_self _ (by decide)⟩

/-! ## Claim C5: equality of normalized documents versus absence of diff -/

/-- **C5, counterexample.** Two normalized (key-sorted, here singleton)
documents that are unequal — they differ in a top-level key outside the
three extracted sections — yet `generatePlanDiff` reports no difference at
all: a reported absence of diff does not imply the normalized documents
are equal. -/
theorem claim_C5_counterexample :
    sortMapKeys [("foo", Value.num 1)] = [("foo", Value.num 1)]
    ∧ sortMapKeys [("foo", Value.num 2)] = [("foo", Value.num 2)]
    ∧ ([("foo", Value.num 1)] : Entries) ≠ [("foo", Value.num 2)]
    ∧ generatePlanDiff [("foo", Value.num 1)] [("foo", Value.num 2)] = ("", [], false) := by
  refine ⟨?_, ?_, by decide, by decide⟩
  · simp [sortMapKeys, sortStrings, List.insertionSort, lookupD, alookup, processValue]
  · simp [sortMapKeys, sortStrings, List.insertionSort, lookupD, alookup, processValue]

/-- **C5, amended.** What the code guarantees is section-wise: a section
comparison reports no diff exactly when the two extracted section
dictionaries are deeply equal (document equality implies no diff — C4 —
but the converse fails at document level, see the counterexample). -/
theorem claim_C5_amended (A B : Entries) :
    ((compareVariables A B).2.2 = false
       ↔ deepEqualMap (getVariables A) (getVariables B) = true)
    ∧ ((compareResourceSections A B).2.2 = false
       ↔ deepEqualMap (getResources A) (getResources B) = true)
    ∧ ((compareOutputSections A B).2.2 = false
       ↔ deepEqualMap (getOutputs A) (getOutputs B) = true) := by
  refine ⟨?_, ?_, ?_⟩
  · by_cases h : deepEqualMap (getVariables A) (getVariables B) = true <;>
      simp [compareVariables, h]
  · by_cases h : deepEqualMap (getResources A) (getResources B) = true <;>
      simp [compareResourceSections, h]
  · by_cases h : deepEqualMap (getOutputs A) (getOutputs B) = true <;>
      simp [compareOutputSections, h]

/-! ## Claim C1: outputs precedence -/

theorem alookup_getOutputsPlanned {plan pv outs : Entries} {k : String}
    (h1 : alookup plan "planned_values" = some (.obj pv))
    (h2 : alookup pv "outputs" = some (.obj outs)) :
    alookup (getOutputsPlanned plan) k = lastEntry outs k := by
  simp only [getOutputsPlanned, h1, h2]
  rw [alookup_foldl_aset]
  simp

/-- **C1.** When an output name `k` is present both in
`planned_values.outputs` (value `x`) and in `output_changes` (value `y`,
`y != x`), `getOutputs` maps `k` to `x`: the planned-values entries are
written first and an `output_changes` entry is only added when its key is
not already present. -/
theorem claim_C1_outputs_precedence
    (plan pv outs oc : Entries) (k : String) (x y : Value)
    (h1 : alookup plan "planned_values" = some (.obj pv))
    (h2 : alookup pv "outputs" = some (.obj outs))
    (h3 : nodupKeysB outs = true)
    (h4 : alookup outs k = some x)
    (h5 : alookup plan "output_changes" = some (.obj oc))
    (h6 : alookup oc k = some y)
    (h7 : x ≠ y) :
    alookup (getOutputs plan) k = some x := by
  have hp : alookup (getOutputsPlanned plan) k = some x := by
    rw [alookup_getOutputsPlanned h1 h2, lastEntry_eq_alookup h3, h4]
  have hk : hasKey (getOutputsPlanned plan) k = true := by
    simp [hasKey, hp]
  simp only [getOutputs, h5]
  rw [alookup_foldl_guarded _ _ _ hk]
  exact hp

/-- **C1, witness.** The outputs precedence at a concrete plan carrying the
output `o` in both sources with differing values. -/
theorem claim_C1_witness :
    nodupKeysB [("o", Value.str "X")] = true
    ∧ Value.str "X" ≠ Value.str "Y"
    ∧ alookup
        (getOutputs
          [("planned_values", .obj [("outputs", .obj [("o", .str "X")])]),
           ("output_changes", .obj [("o", .str "Y")])])
        "o" = some (.str "X") :=
  ⟨by decide, by decide,
   claim_C1_outputs_precedence
     [("planned_values", .obj [("outputs", .obj [("o", .str "X")])]),
      ("output_changes", .obj [("o", .str "Y")])]
     [("outputs", .obj [("o", .str "X")])]
     [("o", .str "X")]
     [("o", .str "Y")]
     "o" (.str "X") (.str "Y")
     (by decide) (by decide) (by decide) (by decide) (by decide) (by decide)
     (by decide)⟩

/-! ## Claim C2: resources precedence -/

/-- The `resources` slice of a root module (empty when absent or not a
slice). -/
def rootModuleResourcesList (rootModule : Entries) : List Value :=
  match alookup rootModule "resources" with
  | some (.arr l) => l
  | _ => []

/-- The top-level `resource_changes` slice of a plan. -/
def resourceChangesList (plan : Entries) : List Value :=
  match alookup plan "resource_changes" with
  | some (.arr l) => l
  | _ => []

/-- The resources slice under `planned_values.root_module`. -/
def plannedValuesResourcesList (plan : Entries) : List Value :=
  match alookup plan "planned_values" with
  | some (.obj pv) =>
    match alookup pv "root_module" with
    | some (.obj rm) => rootModuleResourcesList rm
    | _ => []
  | _ => []

/-- The resources slice under `prior_state.values.root_module`. -/
def priorStateResourcesList (plan : Entries) : List Value :=
  match alookup plan "prior_state" with
  | some (.obj ps) =>
    match alookup ps "values" with
    | some (.obj vals) =>
      match alookup vals "root_module" with
      | some (.obj rm) => rootModuleResourcesList rm
      | _ => []
    | _ => []
  | _ => []

theorem alookup_processRootModuleResources (rootModule r : Entries) (k : String) :
    alookup (processRootModuleResources rootModule r) k
      = oor ((lastAddrRecord (rootModuleResourcesList rootModule) k).map Value.obj)
          (alookup r k) := by
  cases h : alookup rootModule "resources" with
  | none => simp [processRootModuleResources, rootModuleResourcesList, h, lastAddrRecord]
  | some v =>
    cases v with
    | arr l =>
      simp only [processRootModuleResources, rootModuleResourcesList, h]
      exact alookup_foldl_resources l r k
    | null => simp [processRootModuleResources, rootModuleResourcesList, h, lastAddrRecord]
    | bool b => simp [processRootModuleResources, rootModuleResourcesList, h, lastAddrRecord]
    | num n => simp [processRootModuleResources, rootModuleResourcesList, h, lastAddrRecord]
    | str s => simp [processRootModuleResources, rootModuleResourcesList, h, lastAddrRecord]
    | obj m => simp [processRootModuleResources, rootModuleResourcesList, h, lastAddrRecord]

theorem alookup_processResourceChanges (plan r : Entries) (k : String) :
    alookup (processResourceChanges plan r) k
      = oor ((lastAddrRecord (resourceChangesList plan) k).map Value.obj)
          (alookup r k) := by
  cases h : alookup plan "resource_changes" with
  | none => simp [processResourceChanges, resourceChangesList, h, lastAddrRecord]
  | some v =>
    cases v with
    | arr l =>
      simp only [processResourceChanges, resourceChangesList, h]
      exact alookup_foldl_resources l r k
    | null => simp [processResourceChanges, resourceChangesList, h, lastAddrRecord]
    | bool b => simp [processResourceChanges, resourceChangesList, h, lastAddrRecord]
    | num n => simp [processResourceChanges, resourceChangesList, h, lastAddrRecord]
    | str s => simp [processResourceChanges, resourceChangesList, h, lastAddrRecord]
    | obj m => simp [processResourceChanges, resourceChangesList, h, lastAddrRecord]

theorem alookup_processPlannedValuesResources (plan r : Entries) (k : String) :
    alookup (processPlannedValuesResources plan r) k
      = oor ((lastAddrRecord (plannedValuesResourcesList plan) k).map Value.obj)
          (alookup r k) := by
  unfold processPlannedValuesResources plannedValuesResourcesList
  split
  · rename_i pv h1
    split
    · rename_i rm h2
      exact alookup_processRootModuleResources rm r k
    · simp [lastAddrRecord]
  · simp [lastAddrRecord]

theorem alookup_processPriorStateResources (plan r : Entries) (k : String) :
    alookup (processPriorStateResources plan r) k
      = oor ((lastAddrRecord (priorStateResourcesList plan) k).map Value.obj)
          (alookup r k) := by
  unfold processPriorStateResources priorStateResourcesList
  split
  · rename_i ps h1
    split
    · rename_i vals h2
      split
      · rename_i rm h3
        exact alookup_processRootModuleResources rm r k
      · simp [lastAddrRecord]
    · simp [lastAddrRecord]
  · simp [lastAddrRecord]

/-- **C2.** `getResources` realizes the precedence order prior-state, then
planned-values, then resource-changes, later sources overwriting earlier
ones: the record stored under an address `k` is the last well-formed
`resource_changes` entry with that address when one exists, else the last
planned-values root-module resource with that address, else the last
prior-state one.  In particular, when an address appears both in a
prior-state source and in `resource_changes` with differing records, the
`resource_changes` record is the one retained. -/
theorem claim_C2_resources_precedence (plan : Entries) (k : String) :
    alookup (getResources plan) k
      = oor ((lastAddrRecord (resourceChangesList plan) k).map Value.obj)
          (oor ((lastAddrRecord (plannedValuesResourcesList plan) k).map Value.obj)
            ((lastAddrRecord (priorStateResourcesList plan) k).map Value.obj)) := by
  unfold getResources
  rw [alookup_processResourceChanges, alookup_processPlannedValuesResources,
      alookup_processPriorStateResources]
  simp

/-! ## Claim C8: effective attributes of a resource record -/

/-- The `values` sub-map of a resource record (empty when absent or not a
map). -/
def valuesOf (resMap : Entries) : Entries :=
  match alookup resMap "values" with
  | some (.obj v) => v
  | _ => []

/-- The `change.after` sub-map of a resource record (empty when absent or
not a map). -/
def changeAfterOf (resMap : Entries) : Entries :=
  match alookup resMap "change" with
  | some (.obj change) =>
    match alookup change "after" with
    | some (.obj a) => a
    | _ => []
  | _ => []

theorem alookup_extractValuesField (resMap r : Entries) (k : String)
    (hn : nodupKeysB (valuesOf resMap) = true) :
    alookup (extractValuesField resMap r) k
      = oor (alookup (valuesOf resMap) k) (alookup r k) := by
  cases h : alookup resMap "values" with
  | none => simp [extractValuesField, valuesOf, h]
  | some v =>
    cases v with
    | obj values =>
      rw [valuesOf, h] at hn
      simp only [extractValuesField, valuesOf, h]
      rw [alookup_foldl_aset, lastEntry_eq_alookup hn]
    | null => simp [extractValuesField, valuesOf, h]
    | bool b => simp [extractValuesField, valuesOf, h]
    | num n => simp [extractValuesField, valuesOf, h]
    | str s => simp [extractValuesField, valuesOf, h]
    | arr l => simp [extractValuesField, valuesOf, h]

theorem alookup_extractChangeAfterField (resMap r : Entries) (k : String)
    (hn : nodupKeysB (changeAfterOf resMap) = true) :
    alookup (extractChangeAfterField resMap r) k
      = oor (alookup (changeAfterOf resMap) k) (alookup r k) := by
  cases h : alookup resMap "change" with
  | none => simp [extractChangeAfterField, changeAfterOf, h]
  | some v =>
    cases v with
    | obj change =>
      cases h2 : alookup change "after" with
      | none => simp [extractChangeAfterField, changeAfterOf, h, h2]
      | some w =>
        cases w with
        | obj after =>
          rw [changeAfterOf, h] at hn
          simp only [h2] at hn
          simp only [extractChangeAfterField, changeAfterOf, h, h2]
          rw [alookup_foldl_aset, lastEntry_eq_alookup hn]
        | null => simp [extractChangeAfterField, changeAfterOf, h, h2]
        | bool b => simp [extractChangeAfterField, changeAfterOf, h, h2]
        | num n => simp [extractChangeAfterField, changeAfterOf, h, h2]
        | str s => simp [extractChangeAfterField, changeAfterOf, h, h2]
        | arr l => simp [extractChangeAfterField, changeAfterOf, h, h2]
    | null => simp [extractChangeAfterField, changeAfterOf, h]
    | bool b => simp [extractChangeAfterField, changeAfterOf, h]
    | num n => simp [extractChangeAfterField, changeAfterOf, h]
    | str s => simp [extractChangeAfterField, changeAfterOf, h]
    | arr l => simp [extractChangeAfterField, changeAfterOf, h]

/-- **C8.** The effective attribute dictionary of a resource record is the
union of its `values` fields overlaid by its `change.after` fields, the
overlay winning on every key: looking up any key returns the `change.after`
binding when present, else the `values` binding.  A record carrying
neither field, or a resource value that is not a map at all, yields the
empty dictionary. -/
theorem claim_C8_effective_attributes (resMap : Entries) (k : String)
    (hnv : nodupKeysB (valuesOf resMap) = true)
    (hna : nodupKeysB (changeAfterOf resMap) = true) :
    alookup (getResourceAttributes (.obj resMap)) k
      = oor (alookup (changeAfterOf resMap) k) (alookup (valuesOf resMap) k)
    ∧ (alookup resMap "values" = none → alookup resMap "change" = none →
        getResourceAttributes (.obj resMap) = [])
    ∧ getResourceAttributes .null = []
    ∧ (∀ s, getResourceAttributes (.str s) = [])
    ∧ (∀ n, getResourceAttributes (.num n) = [])
    ∧ (∀ b, getResourceAttributes (.bool b) = [])
    ∧ (∀ l, getResourceAttributes (.arr l) = []) := by
  refine ⟨?_, ?_, rfl, fun s => rfl, fun n => rfl, fun b => rfl, fun l => rfl⟩
  · show alookup (extractChangeAfterField resMap (extractValuesField resMap [])) k = _
    rw [alookup_extractChangeAfterField _ _ _ hna,
        alookup_extractValuesField _ _ _ hnv]
    simp
  · intro h1 h2
    show extractChangeAfterField resMap (extractValuesField resMap []) = []
    simp [extractChangeAfterField, extractValuesField, h1, h2]

/-- **C8, witness.** The effective-attribute equation applied at a concrete
record whose `values` and `change.after` collide on key `b`. -/
theorem claim_C8_witness :
    nodupKeysB (valuesOf
      [("values", .obj [("a", .num 1), ("b", .num 2)]),
       ("change", .obj [("after", .obj [("b", .num 3), ("c", .num 4)])])]) = true
    ∧ nodupKeysB (changeAfterOf
      [("values", .obj [("a", .num 1), ("b", .num 2)]),
       ("change", .obj [("after", .obj [("b", .num 3), ("c", .num 4)])])]) = true
    ∧ alookup
        (getResourceAttributes (.obj
          [("values", .obj [("a", .num 1), ("b", .num 2)]),
           ("change", .obj [("after", .obj [("b", .num 3), ("c", .num 4)])])]))
        "b"
      = oor
          (alookup (changeAfterOf
            [("values", .obj [("a", .num 1), ("b", .num 2)]),
             ("change", .obj [("after", .obj [("b", .num 3), ("c", .num 4)])])]) "b")
          (alookup (valuesOf
            [("values", .obj [("a", .num 1), ("b", .num 2)]),
             ("change", .obj [("after", .obj [("b", .num 3), ("c", .num 4)])])]) "b") :=
  ⟨by decide, by decide,
   (claim_C8_effective_attributes
     [("values", .obj [("a", .num 1), ("b", .num 2)]),
      ("change", .obj [("after", .obj [("b", .num 3), ("c", .num 4)])])]
     "b" (by decide) (by decide)).1⟩

/-! ## Claim C9: extracting the payload from the captured output -/

theorem stringsIndex_none {l : List Char} {c : Char}
    (h : stringsIndex l c = none) : c ∉ l := by
  induction l with
  | nil => simp
  | cons a rest ih =>
    by_cases h2 : a = c
    · simp [stringsIndex, h2] at h
    · simp only [stringsIndex, h2, if_false] at h
      rw [Option.map_eq_none'] at h
      simp [Ne.symm h2, ih h]

theorem stringsIndex_some {l : List Char} {c : Char} :
    ∀ {i : Nat}, stringsIndex l c = some i →
      ∃ pre post, l = pre ++ c :: post ∧ c ∉ pre ∧ l.drop i = c :: post := by
  induction l with
  | nil => intro i h; simp [stringsIndex] at h
  | cons a rest ih =>
    intro i h
    by_cases h2 : a = c
    · subst h2
      simp [stringsIndex] at h
      subst h
      exact ⟨[], rest, rfl, by simp, rfl⟩
    · simp only [stringsIndex, h2, if_false] at h
      cases h3 : stringsIndex rest c with
      | none => rw [h3] at h; simp at h
      | some j =>
        rw [h3] at h
        simp at h
        obtain ⟨pre, post, hsplit, hnot, hdrop⟩ := ih h3
        refine ⟨a :: pre, post, by simp [hsplit], ?_, ?_⟩
        · intro hmem2
          rcases List.mem_cons.1 hmem2 with h4 | h4
          · exact h2 h4.symm
          · exact hnot h4
        · rw [← h]
          simpa using hdrop

/-- **C9.** `extractJSONFromOutput` has exactly two behaviours: when the
input contains an opening brace it returns, with no error, the suffix
starting at the first such brace; when it contains none it returns the
`ErrNoJSONOutput` sentinel together with the empty string. -/
theorem claim_C9_extract_json (s : String) :
    ('{' ∈ s.toList →
      ∃ pre post, s.toList = pre ++ '{' :: post ∧ '{' ∉ pre
        ∧ extractJSONFromOutput s = (String.mk ('{' :: post), none))
    ∧ ('{' ∉ s.toList →
      extractJSONFromOutput s = ("", some .errNoJSONOutput)) := by
  cases h : stringsIndex s.toList '{' with
  | none =>
    have h' : stringsIndex s.data '{' = none := h
    constructor
    · intro hmem
      exact absurd hmem (stringsIndex_none h)
    · intro _
      simp [extractJSONFromOutput, h']
  | some i =>
    obtain ⟨pre, post, hsplit, hnot, hdrop⟩ := stringsIndex_some h
    have h' : stringsIndex s.data '{' = some i := h
    have hdrop' : List.drop i s.data = '{' :: post := hdrop
    constructor
    · intro _
      refine ⟨pre, post, hsplit, hnot, ?_⟩
      simp [extractJSONFromOutput, h', hdrop']
    · intro hmem
      exact absurd (by rw [hsplit]; simp) hmem

/-- **C9, witness.** Both behaviours at concrete inputs: an input with a
brace in the middle, and one with no brace. -/
theorem claim_C9_witness :
    ('{' ∈ ("ab\x7bcd" : String).toList)
    ∧ (∃ pre post, ("ab\x7bcd" : String).toList = pre ++ '{' :: post ∧ '{' ∉ pre
        ∧ extractJSONFromOutput "ab\x7bcd" = (String.mk ('{' :: post), none))
    ∧ ('{' ∉ ("abcd" : String).toList)
    ∧ extractJSONFromOutput "abcd" = ("", some .errNoJSONOutput) :=
  ⟨by decide,
   (claim_C9_extract_json "ab\x7bcd").1 (by decide),
   by decide,
   (claim_C9_extract_json "abcd").2 (by decide)⟩

/-! ## Claim C3: the skip-set invariant -/

/-- Whether a structured diff record is an object whose `name` field is the
string `k`. -/
def recNamed (k : String) (x : Value) : Bool :=
  match x with
  | .obj fields =>
    match alookup fields "name" with
    | some (.str n) => n == k
    | _ => false
  | _ => false

/-- An attribute diff map whose `added`, `removed` and `changed`
collections are all present and carry no record named `k`. -/
def hasNoRecordNamed (k : String) (m : Entries) : Bool :=
  (match alookup m "added" with
   | some (.arr l) => l.all (fun x => !recNamed k x)
   | _ => false)
  && (match alookup m "removed" with
      | some (.arr l) => l.all (fun x => !recNamed k x)
      | _ => false)
  && (match alookup m "changed" with
      | some (.arr l) => l.all (fun x => !recNamed k x)
      | _ => false)

theorem recNamed_mkNameValue (k nm : String) (v : Value) :
    recNamed k (mkNameValue nm v) = (nm == k) := by
  simp [recNamed, mkNameValue, alookup]

theorem recNamed_mkNameOldNew (k nm : String) (o n : Value) :
    recNamed k (mkNameOldNew nm o n) = (nm == k) := by
  simp [recNamed, mkNameOldNew, alookup]

theorem name_ne_of_skip {k nm : String} (hk : skipAttrs k = true)
    (h2 : skipAttrs nm = false) : (nm == k) = false := by
  rcases eq_or_ne nm k with rfl | h
  · rw [hk] at h2
    cases h2
  · exact beq_eq_false_iff_ne.2 h

theorem priority_pass_names (o n : Entries) (ps : List String) (k : String)
    (hk : skipAttrs k = true) (hps : ∀ p ∈ ps, skipAttrs p = false) :
    (∀ x ∈ (processPriorityAttributes o n ps).2.1, recNamed k x = false)
    ∧ (∀ x ∈ (processPriorityAttributes o n ps).2.2.1, recNamed k x = false)
    ∧ (∀ x ∈ (processPriorityAttributes o n ps).2.2.2, recNamed k x = false) := by
  induction ps with
  | nil => simp [processPriorityAttributes]
  | cons attrK rest ih =>
    obtain ⟨iha, ihr, ihc⟩ := ih (fun p hp => hps p (by simp [hp]))
    have hattr : skipAttrs attrK = false := hps attrK (by simp)
    have hne : (attrK == k) = false := name_ne_of_skip hk hattr
    rcases hrec : processPriorityAttributes o n rest with ⟨s, a, r, c⟩
    rw [hrec] at iha ihr ihc
    simp only [processPriorityAttributes, hrec]
    cases ho : alookup o attrK with
    | some origAttrV =>
      cases hn2 : alookup n attrK with
      | some newAttrV =>
        by_cases hde : deepEqual origAttrV newAttrV = true
        · simp only [hde, if_true]
          exact ⟨iha, ihr, ihc⟩
        · simp only [Bool.not_eq_true] at hde
          simp only [hde, Bool.false_eq_true, if_false]
          refine ⟨iha, ihr, ?_⟩
          intro x hx
          rcases List.mem_cons.1 hx with h1 | h1
          · subst h1
            rw [recNamed_mkNameOldNew, hne]
          · exact ihc x h1
      | none =>
        refine ⟨iha, ?_, ihc⟩
        intro x hx
        rcases List.mem_cons.1 hx with h1 | h1
        · subst h1
          rw [recNamed_mkNameValue, hne]
        · exact ihr x h1
    | none =>
      cases hn2 : alookup n attrK with
      | some newAttrV =>
        refine ⟨?_, ihr, ihc⟩
        intro x hx
        rcases List.mem_cons.1 hx with h1 | h1
        · subst h1
          rw [recNamed_mkNameValue, hne]
        · exact iha x h1
      | none => exact ⟨iha, ihr, ihc⟩

theorem regular_pass_names (nA : Entries) (oA : Entries) (k : String)
    (hk : skipAttrs k = true) :
    (∀ x ∈ (processRegularAttributeChanges nA oA).2.1, recNamed k x = false)
    ∧ (∀ x ∈ (processRegularAttributeChanges nA oA).2.2, recNamed k x = false) := by
  induction oA with
  | nil => simp [processRegularAttributeChanges]
  | cons p rest ih =>
    obtain ⟨k0, v0⟩ := p
    obtain ⟨ihr, ihc⟩ := ih
    rcases hrec : processRegularAttributeChanges nA rest with ⟨s, r, c⟩
    rw [hrec] at ihr ihc
    simp only [processRegularAttributeChanges, hrec]
    by_cases hg : (containsStr priorityAttrs k0 || skipAttrs k0) = true
    · simp only [hg, if_true]
      exact ⟨ihr, ihc⟩
    · simp only [Bool.not_eq_true] at hg
      simp only [hg, Bool.false_eq_true, if_false]
      have hskip : skipAttrs k0 = false := by
        cases hS : skipAttrs k0
        · rfl
        · rw [hS, Bool.or_true] at hg
          cases hg
      have hne : (k0 == k) = false := name_ne_of_skip hk hskip
      cases hn2 : alookup nA k0 with
      | some newAttrV =>
        by_cases hde : deepEqual v0 newAttrV = true
        · simp only [hde, if_true]
          exact ⟨ihr, ihc⟩
        · simp only [Bool.not_eq_true] at hde
          simp only [hde, Bool.false_eq_true, if_false]
          refine ⟨ihr, ?_⟩
          intro x hx
          rcases List.mem_cons.1 hx with h1 | h1
          · subst h1
            rw [recNamed_mkNameOldNew, hne]
          · exact ihc x h1
      | none =>
        refine ⟨?_, ihc⟩
        intro x hx
        rcases List.mem_cons.1 hx with h1 | h1
        · subst h1
          rw [recNamed_mkNameValue, hne]
        · exact ihr x h1

theorem added_pass_names (oA nA : Entries) (k : String)
    (hk : skipAttrs k = true) :
    ∀ x ∈ (processAddedAttributes oA nA).2, recNamed k x = false := by
  induction nA with
  | nil => simp [processAddedAttributes]
  | cons p rest ih =>
    obtain ⟨k0, v0⟩ := p
    rcases hrec : processAddedAttributes oA rest with ⟨s, a⟩
    rw [hrec] at ih
    simp only [processAddedAttributes, hrec]
    by_cases hg : (!hasKey oA k0 && !containsStr priorityAttrs k0 && !skipAttrs k0) = true
    · simp only [hg, if_true]
      have hskip : skipAttrs k0 = false := by
        cases hS : skipAttrs k0
        · rfl
        · rw [hS] at hg
          simp at hg
      have hne : (k0 == k) = false := name_ne_of_skip hk hskip
      intro x hx
      rcases List.mem_cons.1 hx with h1 | h1
      · subst h1
        rw [recNamed_mkNameValue, hne]
      · exact ih x h1
    · simp only [Bool.not_eq_true] at hg
      simp only [hg, Bool.false_eq_true, if_false]
      exact ih

/-- **C3.** For any pair of effective attribute dictionaries and any key in
the fixed skip set, no record carrying that key appears in the `added`,
`removed` or `changed` collection of the attribute comparison result, no
matter how the key's values differ between the two sides. -/
theorem claim_C3_skip_set_invariant (origAttrs newAttrs : Entries) (k : String)
    (hk : skipAttrs k = true) :
    hasNoRecordNamed k (processAttributeDifferences origAttrs newAttrs).2 = true := by
  have hps : ∀ p ∈ priorityAttrs, skipAttrs p = false := by decide
  obtain ⟨hpa, hpr, hpc⟩ := priority_pass_names origAttrs newAttrs priorityAttrs k hk hps
  obtain ⟨hrr, hrc⟩ := regular_pass_names newAttrs origAttrs k hk
  have haa := added_pass_names origAttrs newAttrs k hk
  rcases h1 : processPriorityAttributes origAttrs newAttrs priorityAttrs with ⟨s1, a1, r1, c1⟩
  rcases h2 : processRegularAttributeChanges newAttrs origAttrs with ⟨s2, r2, c2⟩
  rcases h3 : processAddedAttributes origAttrs newAttrs with ⟨s3, a3⟩
  rw [h1] at hpa hpr hpc
  rw [h2] at hrr hrc
  rw [h3] at haa
  simp only [processAttributeDifferences, h1, h2, h3]
  have e1 : alookup [("added", Value.arr (a1 ++ a3)), ("removed", Value.arr (r1 ++ r2)),
      ("changed", Value.arr (c1 ++ c2))] "added" = some (Value.arr (a1 ++ a3)) := rfl
  have e2 : alookup [("added", Value.arr (a1 ++ a3)), ("removed", Value.arr (r1 ++ r2)),
      ("changed", Value.arr (c1 ++ c2))] "removed" = some (Value.arr (r1 ++ r2)) := rfl
  have e3 : alookup [("added", Value.arr (a1 ++ a3)), ("removed", Value.arr (r1 ++ r2)),
      ("changed", Value.arr (c1 ++ c2))] "changed" = some (Value.arr (c1 ++ c2)) := rfl
  simp only [hasNoRecordNamed, e1, e2, e3, Bool.and_eq_true, List.all_eq_true,
    List.mem_append]
  refine ⟨⟨?_, ?_⟩, ?_⟩
  · intro x hx
    rcases hx with h | h
    · simp [hpa x h]
    · simp [haa x h]
  · intro x hx
    rcases hx with h | h
    · simp [hpr x h]
    · simp [hrr x h]
  · intro x hx
    rcases hx with h | h
    · simp [hpc x h]
    · simp [hrc x h]

/-- **C3, witness.** The invariant at a concrete pair of dictionaries that
differ wildly on the skip-set key `content_md5` (changed, and also present
on one side only for another skip key). -/
theorem claim_C3_witness :
    skipAttrs "content_md5" = true
    ∧ hasNoRecordNamed "content_md5"
        (processAttributeDifferences
          [("content_md5", .str "aaa"), ("x", .num 1), ("content_sha1", .str "s")]
          [("content_md5", .str "bbb"), ("x", .num 2)]).2 = true :=
  ⟨by decide,
   claim_C3_skip_set_invariant
     [("content_md5", .str "aaa"), ("x", .num 1), ("content_sha1", .str "s")]
     [("content_md5", .str "bbb"), ("x", .num 2)]
     "content_md5" (by decide)⟩

/-! ## Claim C6: addition/removal symmetry for variables and outputs -/

/-- The `added` collection of a structured section diff. -/
def addedListOf (m : Entries) : List Value :=
  match alookup m "added" with
  | some (.arr l) => l
  | _ => []

/-- The `removed` collection of a structured section diff. -/
def removedListOf (m : Entries) : List Value :=
  match alookup m "removed" with
  | some (.arr l) => l
  | _ => []

theorem nodupKeysB_iff (m : Entries) :
    nodupKeysB m = true ↔ (m.map Prod.fst).Nodup := by
  induction m with
  | nil => simp [nodupKeysB]
  | cons p rest ih =>
    obtain ⟨k, v⟩ := p
    simp only [nodupKeysB, Bool.and_eq_true, Bool.not_eq_true', List.map_cons,
      List.nodup_cons, ← ih]
    constructor
    · rintro ⟨h1, h2⟩
      refine ⟨fun hmem => ?_, h2⟩
      rw [(hasKey_iff_key_mem rest k).2 hmem] at h1
      cases h1
    · rintro ⟨h1, h2⟩
      refine ⟨?_, h2⟩
      cases hK : hasKey rest k
      · rfl
      · exact absurd ((hasKey_iff_key_mem rest k).1 hK) h1

theorem addedKeys_nil_fwd {a b : Entries} (na : nodupKeysB a = true)
    (nb : nodupKeysB b = true) (h : deepEqualMap a b = true) :
    addedKeys a b = [] := by
  simp only [deepEqualMap, Bool.and_eq_true, beq_iff_eq] at h
  have hsub : ∀ p ∈ a, hasKey b p.1 = true := by
    intro p hp
    obtain ⟨w, hw, _⟩ := forall_of_deepEqualSub h.2 p hp
    simp [hasKey, hw]
  have hka : (a.map Prod.fst).Nodup := (nodupKeysB_iff a).1 na
  have hsubk : a.map Prod.fst ⊆ b.map Prod.fst := by
    intro x hx
    obtain ⟨p, hp, rfl⟩ := List.mem_map.1 hx
    exact (hasKey_iff_key_mem b p.1).1 (hsub p hp)
  have hperm : (a.map Prod.fst).Perm (b.map Prod.fst) :=
    (List.subperm_of_subset hka hsubk).perm_of_length_le (by simp [h.1])
  rw [addedKeys, List.filter_eq_nil_iff]
  intro q hq
  have hqa : q.1 ∈ a.map Prod.fst :=
    hperm.mem_iff.2 (List.mem_map.2 ⟨q, hq, rfl⟩)
  simp [(hasKey_iff_key_mem a q.1).2 hqa]

theorem addedKeys_nil_bwd {a b : Entries} (h : deepEqualMap b a = true) :
    addedKeys a b = [] := by
  simp only [deepEqualMap, Bool.and_eq_true] at h
  rw [addedKeys, List.filter_eq_nil_iff]
  intro q hq
  obtain ⟨w, hw, _⟩ := forall_of_deepEqualSub h.2 q hq
  simp [hasKey, hw]

theorem addedListOf_compareVariables (A B : Entries) :
    addedListOf (compareVariables A B).2.1
      = (addedKeys (getVariables A) (getVariables B)).map
          (fun p => mkNameValue p.1 p.2) := by
  cases h : deepEqualMap (getVariables A) (getVariables B) with
  | true =>
    rw [compareVariables_eq_of_deepEqualMap h,
        addedKeys_nil_fwd (nodupKeysB_getVariables A) (nodupKeysB_getVariables B) h]
    rfl
  | false =>
    simp [compareVariables, h, addedListOf, alookup]

theorem removedListOf_compareVariables (A B : Entries) :
    removedListOf (compareVariables A B).2.1
      = (addedKeys (getVariables B) (getVariables A)).map
          (fun p => mkNameValue p.1 p.2) := by
  cases h : deepEqualMap (getVariables A) (getVariables B) with
  | true =>
    rw [compareVariables_eq_of_deepEqualMap h, addedKeys_nil_bwd h]
    rfl
  | false =>
    simp [compareVariables, h, removedListOf, alookup]

theorem addedListOf_compareOutputSections (A B : Entries) :
    addedListOf (compareOutputSections A B).2.1
      = (addedKeys (getOutputs A) (getOutputs B)).map
          (fun p => mkNameValue p.1 p.2) := by
  cases h : deepEqualMap (getOutputs A) (getOutputs B) with
  | true =>
    rw [compareOutputSections_eq_of_deepEqualMap h,
        addedKeys_nil_fwd (nodupKeysB_getOutputs A) (nodupKeysB_getOutputs B) h]
    rfl
  | false =>
    simp [compareOutputSections, compareOutputs, h, addedListOf, alookup]

theorem removedListOf_compareOutputSections (A B : Entries) :
    removedListOf (compareOutputSections A B).2.1
      = (addedKeys (getOutputs B) (getOutputs A)).map
          (fun p => mkNameValue p.1 p.2) := by
  cases h : deepEqualMap (getOutputs A) (getOutputs B) with
  | true =>
    rw [compareOutputSections_eq_of_deepEqualMap h, addedKeys_nil_bwd h]
    rfl
  | false =>
    simp [compareOutputSections, compareOutputs, h, removedListOf, alookup]

/-- **C6.** For the variables and outputs sections, the `{name, value}`
record reported added by comparing `(A, B)` is exactly the record reported
removed by comparing `(B, A)` — both are the entries of the new-side
dictionary whose key is absent from the old side, with the same associated
value (and when one section comparison reports no diff, both collections
are empty). -/
theorem claim_C6_add_remove_symmetry (A B : Entries) (k : String) (v : Value) :
    (mkNameValue k v ∈ addedListOf (compareVariables A B).2.1
       ↔ mkNameValue k v ∈ removedListOf (compareVariables B A).2.1)
    ∧ (mkNameValue k v ∈ addedListOf (compareOutputSections A B).2.1
       ↔ mkNameValue k v ∈ removedListOf (compareOutputSections B A).2.1) := by
  constructor
  · rw [addedListOf_compareVariables A B, removedListOf_compareVariables B A]
  · rw [addedListOf_compareOutputSections A B, removedListOf_compareOutputSections B A]

/-! ## Claim C7: idempotence of the normalizer -/

theorem processEntries_eq_map (m : Entries) :
    processEntries m = m.map (fun p => (p.1, processValue p.2)) := by
  induction m with
  | nil => rfl
  | cons p rest ih =>
    obtain ⟨k, v⟩ := p
    simp [processEntries, ih]

theorem processList_eq_map (l : List Value) :
    processList l = l.map processValue := by
  induction l with
  | nil => rfl
  | cons v rest ih => simp [processList, ih]

theorem keys_processEntries (m : Entries) :
    (processEntries m).map Prod.fst = m.map Prod.fst := by
  rw [processEntries_eq_map]
  simp

theorem lookupD_processEntries (m : Entries) (k : String) :
    lookupD (processEntries m) k = processValue (lookupD m k) := by
  induction m with
  | nil => rfl
  | cons p rest ih =>
    obtain ⟨k', v⟩ := p
    by_cases h : k' = k
    · simp [processEntries, lookupD, alookup, h]
    · simp only [processEntries, lookupD, alookup, h, if_false]
      exact ih

theorem processValue_obj (m : Entries) :
    processValue (.obj m) = .obj (sortMapKeys m) := by
  show Value.obj (sortEntriesOf (processEntries m)) = _
  unfold sortEntriesOf sortMapKeys
  rw [keys_processEntries]
  congr 1
  apply List.map_congr_left
  intro k _
  rw [lookupD_processEntries]

theorem sortStrings_sorted (l : List String) :
    List.Sorted (· ≤ ·) (sortStrings l) :=
  List.sorted_insertionSort _ l

theorem sortStrings_perm (l : List String) : (sortStrings l).Perm l :=
  List.perm_insertionSort _ l

theorem sortStrings_idem (l : List String) :
    sortStrings (sortStrings l) = sortStrings l :=
  List.Sorted.insertionSort_eq (sortStrings_sorted l)

theorem keys_sortMapKeys (m : Entries) :
    (sortMapKeys m).map Prod.fst = sortStrings (m.map Prod.fst) := by
  unfold sortMapKeys
  rw [List.map_map]
  exact List.map_id'' (fun x => rfl) _

theorem alookup_tab (ks : List String) (f : String → Value) (k : String) :
    alookup (ks.map (fun x => (x, f x))) k = if k ∈ ks then some (f k) else none := by
  induction ks with
  | nil => simp [alookup]
  | cons x rest ih =>
    by_cases h : x = k
    · subst h
      simp [alookup]
    · simp [alookup, h, Ne.symm h, ih]

theorem lookupD_sortMapKeys {m : Entries} {k : String}
    (h : k ∈ sortStrings (m.map Prod.fst)) :
    lookupD (sortMapKeys m) k = processValue (lookupD m k) := by
  unfold sortMapKeys lookupD
  rw [alookup_tab]
  simp [h]

theorem mem_keys_lookupD {m : Entries} {k : String}
    (h : k ∈ m.map Prod.fst) : ∃ p ∈ m, p.1 = k ∧ lookupD m k = p.2 := by
  obtain ⟨v, hv⟩ := alookup_isSome_of_key_mem h
  exact ⟨(k, v), mem_of_alookup hv, rfl, by simp [lookupD, hv]⟩

theorem sortMapKeys_idem_of (m : Entries)
    (ih : ∀ p ∈ m, processValue (processValue p.2) = processValue p.2) :
    sortMapKeys (sortMapKeys m) = sortMapKeys m := by
  conv_lhs => rw [sortMapKeys]
  rw [keys_sortMapKeys, sortStrings_idem]
  conv_rhs => rw [sortMapKeys]
  apply List.map_congr_left
  intro k hk
  rw [lookupD_sortMapKeys hk]
  have hk2 : k ∈ m.map Prod.fst := (sortStrings_perm _).subset hk
  obtain ⟨p, hp, _, hlk⟩ := mem_keys_lookupD hk2
  rw [hlk, ih p hp]

theorem processValue_idem : ∀ v : Value, processValue (processValue v) = processValue v := by
  intro v
  induction v using value_ind with
  | hnull => rfl
  | hbool b => rfl
  | hnum n => rfl
  | hstr s => rfl
  | harr l ih =>
    show processValue (.arr (processList l)) = .arr (processList l)
    show Value.arr (processList (processList l)) = _
    rw [processList_eq_map, processList_eq_map, List.map_map]
    congr 1
    apply List.map_congr_left
    intro v hv
    exact ih v hv
  | hobj m ih =>
    rw [processValue_obj, processValue_obj, sortMapKeys_idem_of m ih]

/-- **C7.** Normalization is idempotent — `sortMapKeys (sortMapKeys d)` is
identical to `sortMapKeys d` for every document — and `processValue`
rebuilds sequences elementwise in order and passes scalars through
unchanged; the normalized document's keys are the sorted permutation of the
original keys.  (The embedding is purely functional, so the input is never
mutated.) -/
theorem claim_C7_normalization_idempotent (m : Entries) (l : List Value)
    (s : String) (n : Int) (b : Bool) :
    sortMapKeys (sortMapKeys m) = sortMapKeys m
    ∧ processValue (.arr l) = .arr (l.map processValue)
    ∧ processValue (.str s) = .str s
    ∧ processValue (.num n) = .num n
    ∧ processValue (.bool b) = .bool b
    ∧ processValue .null = .null
    ∧ List.Sorted (· ≤ ·) ((sortMapKeys m).map Prod.fst)
    ∧ ((sortMapKeys m).map Prod.fst).Perm (m.map Prod.fst) := by
  refine ⟨sortMapKeys_idem_of m (fun p _ => processValue_idem p.2),
          ?_, rfl, rfl, rfl, rfl, ?_, ?_⟩
  · show Value.arr (processList l) = _
    rw [processList_eq_map]
  · rw [keys_sortMapKeys]
    exact sortStrings_sorted _
  · rw [keys_sortMapKeys]
    exact sortStrings_perm _

/-! ## Claim C10: changed resources whose attribute diff is empty -/

/-- The two effective attribute dictionaries agree everywhere outside the
skip set: every old entry is either a skip key or deeply equal to the new
side's binding, and every new entry is either a skip key or present on the
old side. -/
def attrsAgreeOutsideSkip (oldA newA : Entries) : Bool :=
  oldA.all (fun p =>
    skipAttrs p.1 ||
      (match alookup newA p.1 with
       | some w => deepEqual p.2 w
       | none => false))
  && newA.all (fun p => skipAttrs p.1 || hasKey oldA p.1)

/-- The `changed` collection of the resources section of a structured
diff map. -/
def resourcesChangedOf (dm : Entries) : List Value :=
  match alookup dm "resources" with
  | some (.obj rm) =>
    match alookup rm "changed" with
    | some (.arr l) => l
    | _ => []
  | _ => []

theorem priority_pass_trivial {oldA newA : Entries} (ps : List String)
    (hps : ∀ a ∈ ps, skipAttrs a = false)
    (ha : ∀ p ∈ oldA, skipAttrs p.1 = true
        ∨ (∃ w, alookup newA p.1 = some w ∧ deepEqual p.2 w = true))
    (hb : ∀ p ∈ newA, skipAttrs p.1 = true ∨ hasKey oldA p.1 = true) :
    processPriorityAttributes oldA newA ps = ("", [], [], []) := by
  induction ps with
  | nil => rfl
  | cons attrK rest ih =>
    have hih := ih (fun a hA => hps a (by simp [hA]))
    have hskip : skipAttrs attrK = false := hps attrK (by simp)
    simp only [processPriorityAttributes, hih]
    cases hO : alookup oldA attrK with
    | some v =>
      rcases ha (attrK, v) (mem_of_alookup hO) with h | ⟨w, hw, hde⟩
      · rw [hskip] at h
        cases h
      · simp only at hw
        rw [hw]
        simp [hde]
    | none =>
      cases hN : alookup newA attrK with
      | some w =>
        rcases hb (attrK, w) (mem_of_alookup hN) with h | h
        · rw [hskip] at h
          cases h
        · rw [hasKey, hO] at h
          cases h
      | none => simp

theorem regular_pass_trivial {newA : Entries} (oldA : Entries)
    (ha : ∀ p ∈ oldA, skipAttrs p.1 = true
        ∨ (∃ w, alookup newA p.1 = some w ∧ deepEqual p.2 w = true)) :
    processRegularAttributeChanges newA oldA = ("", [], []) := by
  induction oldA with
  | nil => rfl
  | cons p rest ih =>
    obtain ⟨attrK, v⟩ := p
    have hih := ih (fun q hq => ha q (by simp [hq]))
    simp only [processRegularAttributeChanges, hih]
    rcases ha (attrK, v) (by simp) with h | ⟨w, hw, hde⟩
    · simp only at h
      simp [h]
    · by_cases hg : (containsStr priorityAttrs attrK || skipAttrs attrK) = true
      · simp [hg]
      · simp only [Bool.not_eq_true] at hg
        simp only at hw
        simp [hg, hw, hde]

theorem added_pass_trivial {oldA : Entries} (newA : Entries)
    (hb : ∀ p ∈ newA, skipAttrs p.1 = true ∨ hasKey oldA p.1 = true) :
    processAddedAttributes oldA newA = ("", []) := by
  induction newA with
  | nil => rfl
  | cons p rest ih =>
    obtain ⟨attrK, w⟩ := p
    have hih := ih (fun q hq => hb q (by simp [hq]))
    simp only [processAddedAttributes, hih]
    rcases hb (attrK, w) (by simp) with h | h
    · simp only at h
      simp [h]
    · simp only at h
      simp [h]

theorem processAttributeDifferences_trivial {oldA newA : Entries}
    (h4 : attrsAgreeOutsideSkip oldA newA = true) :
    processAttributeDifferences oldA newA
      = ("", [("added", .arr []), ("removed", .arr []), ("changed", .arr [])]) := by
  simp only [attrsAgreeOutsideSkip, Bool.and_eq_true, List.all_eq_true] at h4
  obtain ⟨hA, hB⟩ := h4
  have ha : ∀ p ∈ oldA, skipAttrs p.1 = true
      ∨ (∃ w, alookup newA p.1 = some w ∧ deepEqual p.2 w = true) := by
    intro p hp
    have h := hA p hp
    cases hS : skipAttrs p.1
    · right
      rw [hS, Bool.false_or] at h
      cases hw : alookup newA p.1 with
      | none =>
        rw [hw] at h
        cases h
      | some w =>
        rw [hw] at h
        exact ⟨w, rfl, h⟩
    · left
      rfl
  have hb : ∀ p ∈ newA, skipAttrs p.1 = true ∨ hasKey oldA p.1 = true := by
    intro p hp
    have h := hB p hp
    cases hS : skipAttrs p.1
    · right
      rw [hS, Bool.false_or] at h
      exact h
    · left
      rfl
  have h1 := priority_pass_trivial priorityAttrs (by decide) ha hb
  have h2 := regular_pass_trivial oldA ha
  have h3 := added_pass_trivial newA hb
  simp [processAttributeDifferences, h1, h2, h3]

theorem deepEqualMap_false_of_entry {a b : Entries} {k : String} {rA rB : Value}
    (h1 : alookup a k = some rA) (h2 : alookup b k = some rB)
    (h3 : deepEqual rA rB = false) : deepEqualMap a b = false := by
  cases h : deepEqualMap a b with
  | false => rfl
  | true =>
    exfalso
    simp only [deepEqualMap, Bool.and_eq_true] at h
    obtain ⟨w, hw, hde⟩ := forall_of_deepEqualSub h.2 (k, rA) (mem_of_alookup h1)
    simp only at hw
    rw [h2] at hw
    cases hw
    rw [hde] at h3
    cases h3

theorem mem_processChangedResources {newR : Entries} {orig : Entries}
    {k : String} {rA rB : Value}
    (hmem : (k, rA) ∈ orig) (hB : alookup newR k = some rB)
    (hne : deepEqual rA rB = false) :
    Value.obj [("address", .str k),
      ("attributes", .obj (processAttributeDifferences
        (getResourceAttributes rA) (getResourceAttributes rB)).2)]
      ∈ (processChangedResources newR orig).2 := by
  induction orig with
  | nil => cases hmem
  | cons p rest ih =>
    rcases hrec : processChangedResources newR rest with ⟨s, c⟩
    obtain ⟨k0, v0⟩ := p
    rcases List.mem_cons.1 hmem with hhead | htail
    · rw [Prod.mk.injEq] at hhead
      obtain ⟨rfl, rfl⟩ := hhead
      simp only [processChangedResources, hrec, hB]
      rcases hpd : processAttributeDifferences (getResourceAttributes rA)
          (getResourceAttributes rB) with ⟨astr, amap⟩
      simp [hne, hpd]
    · have hin := ih htail
      rw [hrec] at hin
      simp only [processChangedResources, hrec]
      cases hL : alookup newR k0 with
      | none => simpa using hin
      | some newV =>
        by_cases hde : deepEqual v0 newV = true
        · simp [hde]
          simpa using hin
        · simp only [Bool.not_eq_true] at hde
          rcases hpd : processAttributeDifferences (getResourceAttributes v0)
              (getResourceAttributes newV) with ⟨astr, amap⟩
          simp [hde, hpd]
          right
          simpa using hin

/-- **C10.** When both resource dictionaries hold an address `k` with
records that are not deeply equal, but whose effective attribute
dictionaries agree everywhere outside the skip set, the overall comparison
still reports a difference, and `k` appears in the resources `changed`
collection with an attribute diff whose `added`, `removed` and `changed`
lists are all empty. -/
theorem claim_C10_changed_resource_empty_attr_diff
    (A B : Entries) (k : String) (rA rB : Value)
    (h1 : alookup (getResources A) k = some rA)
    (h2 : alookup (getResources B) k = some rB)
    (h3 : deepEqual rA rB = false)
    (h4 : attrsAgreeOutsideSkip (getResourceAttributes rA)
            (getResourceAttributes rB) = true) :
    (generatePlanDiff A B).2.2 = true
    ∧ Value.obj [("address", .str k),
        ("attributes", .obj [("added", .arr []), ("removed", .arr []),
                             ("changed", .arr [])])]
        ∈ resourcesChangedOf (generatePlanDiff A B).2.1 := by
  have hne : deepEqualMap (getResources A) (getResources B) = false :=
    deepEqualMap_false_of_entry h1 h2 h3
  have hrec := mem_processChangedResources (mem_of_alookup h1) h2 h3
  rw [processAttributeDifferences_trivial h4] at hrec
  rcases hv : compareVariables A B with ⟨vs, vm, vh⟩
  rcases ho : compareOutputSections A B with ⟨os1, om, oh⟩
  rcases h5 : processResourceAdditionsAndRemovals (getResources A) (getResources B)
    with ⟨ars, addedL, removedL⟩
  rcases h6 : processChangedResources (getResources B) (getResources A)
    with ⟨chs, chl⟩
  rw [h6] at hrec
  have hcr : compareResources (getResources A) (getResources B)
      = (ars ++ chs,
         [("added", .arr addedL), ("removed", .arr removedL), ("changed", .arr chl)]) := by
    simp [compareResources, h5, h6]
  have hrs : compareResourceSections A B
      = ("Resources:\n-----------\n\n" ++ (ars ++ chs) ++ "\n",
         [("added", .arr addedL), ("removed", .arr removedL), ("changed", .arr chl)],
         true) := by
    simp [compareResourceSections, hne, hcr]
  constructor
  · simp [generatePlanDiff, hv, ho, hrs]
  · simp only [generatePlanDiff, hv, ho, hrs]
    cases vh <;> cases oh <;>
      simpa [resourcesChangedOf, alookup] using hrec

/-- **C10, witness.** Two plans whose only resource differs solely in the
skip-set attribute `content_md5`: the diff still fires and the address
appears in `changed` with an empty attribute diff. -/
theorem claim_C10_witness :
    deepEqual
      (.obj [("address", .str "r"),
             ("change", .obj [("after", .obj [("content_md5", .str "aaa")])])])
      (.obj [("address", .str "r"),
             ("change", .obj [("after", .obj [("content_md5", .str "bbb")])])]) = false
    ∧ attrsAgreeOutsideSkip
        (getResourceAttributes
          (.obj [("address", .str "r"),
                 ("change", .obj [("after", .obj [("content_md5", .str "aaa")])])]))
        (getResourceAttributes
          (.obj [("address", .str "r"),
                 ("change", .obj [("after", .obj [("content_md5", .str "bbb")])])])) = true
    ∧ ((generatePlanDiff
          [("resource_changes", .arr
            [.obj [("address", .str "r"),
                   ("change", .obj [("after", .obj [("content_md5", .str "aaa")])])]])]
          [("resource_changes", .arr
            [.obj [("address", .str "r"),
                   ("change", .obj [("after", .obj [("content_md5", .str "bbb")])])]])]).2.2 = true
       ∧ Value.obj [("address", .str "r"),
            ("attributes", .obj [("added", .arr []), ("removed", .arr []),
                                 ("changed", .arr [])])]
           ∈ resourcesChangedOf
               (generatePlanDiff
                 [("resource_changes", .arr
                   [.obj [("address", .str "r"),
                          ("change", .obj [("after", .obj [("content_md5", .str "aaa")])])]])]
                 [("resource_changes", .arr
                   [.obj [("address", .str "r"),
                          ("change", .obj [("after", .obj [("content_md5", .str "bbb")])])]])]).2.1) :=
  ⟨by decide, by decide,
   claim_C10_changed_resource_empty_attr_diff
     [("resource_changes", .arr
       [.obj [("address", .str "r"),
              ("change", .obj [("after", .obj [("content_md5", .str "aaa")])])]])]
     [("resource_changes", .arr
       [.obj [("address", .str "r"),
              ("change", .obj [("after", .obj [("content_md5", .str "bbb")])])]])]
     "r"
     (.obj [("address", .str "r"),
            ("change", .obj [("after", .obj [("content_md5", .str "aaa")])])])
     (.obj [("address", .str "r"),
            ("change", .obj [("after", .obj [("content_md5", .str "bbb")])])])
     (by decide) (by decide) (by decide) (by decide)⟩

end PlanDiff
